import Mathlib

/-!
# MicroString

A verification development for `src/MicroString.cpp`: a byte string that keeps up to
15 bytes inside its own 16-byte footprint and moves to a heap buffer beyond that.

## Modelling conventions

* A byte is a `Nat` (the operations only store and return bytes, they never compute
  with them).  `uint64_t` arithmetic is `Nat` arithmetic reduced modulo `2 ^ 64`, the
  7-bit bit-field `Small::size` is reduced modulo `2 ^ 7`.
* A memory cell is an `Option Nat`: `none` is a byte that was never written
  (`new unsigned char[n]` returns `n` such cells).  An array is the list of its cells,
  so the length of a heap buffer is its allocated size.
* `union _MicroString` is a sum of its two members.  The members overlap in memory; the
  overlap the code relies on (x86-64 layout: `Small::flag` is the top bit of the last
  byte, which is bit 63 of `Large::size`; `Small::size` is bits 56..62) is made explicit
  in `_MicroString.flag`, `_MicroString.smallSize` and `_MicroString.largeSize`.
  Reading `characters` of a `Large` or `ptr` of a `Small` is reported as
  `Fault.inactiveMember`.
* The pointer `Large::ptr` is modelled by the buffer it points to.  The allocator is
  the pair of counters `Heap`: how many `new[]` and how many `delete[]` were executed.
* Every operation returns `Except Fault _`: an access outside an array or a read of a
  byte that was never written ends the execution with the corresponding `Fault`.
  `Reachable` collects the states reached by calls that return normally.
* Memory is unbounded, so the only limit on a length is the 63-bit length field: the
  build theorems ask for `length + 2 ≤ 2 ^ 63`, and `ofBytes_length_limit` shows that no
  longer run of `push` calls returns.
-/

namespace MicroStr

/-! ## Constants and machine arithmetic -/

/-- Source: `BOTTOM_63_MASK = std::numeric_limits<int64_t>::max()`. -/
def BOTTOM_63_MASK : Nat := 2 ^ 63 - 1

/-- Source: `SMALL_CHARACTER_SIZE = 15`. -/
def SMALL_CHARACTER_SIZE : Nat := 15

/-- Source: `FIRST_ALLOC_SIZE = 32`. -/
def FIRST_ALLOC_SIZE : Nat := 32

/-- Addition of two `uint64_t`. -/
def add64 (a b : Nat) : Nat := (a + b) % 2 ^ 64

/-- Subtraction of two `uint64_t` (wraps below zero). -/
def sub64 (a b : Nat) : Nat := (a + 2 ^ 64 - b % 2 ^ 64) % 2 ^ 64

/-- Multiplication of two `uint64_t`. -/
def mul64 (a b : Nat) : Nat := (a * b) % 2 ^ 64

/-! ## Memory -/

/-- The ways an execution leaves defined behaviour. -/
inductive Fault where
  | outOfBounds
  | indeterminate
  | inactiveMember
deriving DecidableEq, Repr

/-- An array of bytes; `none` is a byte that was never written. -/
abbrev Buffer := List (Option Nat)

/-- Source: `new unsigned char[n]`: `n` bytes, none of them written. -/
def newArray (n : Nat) : Buffer := List.replicate n none

/-- Array write `a[i] = v`. -/
def store {α : Type} (a : List α) (i : Nat) (v : α) : Except Fault (List α) :=
  if i < a.length then .ok (a.set i v) else .error .outOfBounds

/-- The cell `a[i]`, as it is copied from one array to another. -/
def fetch {α : Type} (a : List α) (i : Nat) : Except Fault α :=
  match a[i]? with
  | some v => .ok v
  | none => .error .outOfBounds

/-- Array read `a[i]` whose value is used. -/
def load (a : Buffer) (i : Nat) : Except Fault Nat :=
  match a[i]? with
  | some (some v) => .ok v
  | some none => .error .indeterminate
  | none => .error .outOfBounds

/-- Source: `for (std::size_t i = 0; i < n; i++) body(i)`, the body run for
`i = 0, 1, ..., n - 1` in this order. -/
def forLoop {σ : Type} (body : Nat → σ → Except Fault σ) : Nat → σ → Except Fault σ
  | 0, s => .ok s
  | n + 1, s => (forLoop body n s).bind (body n)

/-- Source: the loops `for (i < n) dst[i] = src[i]`. -/
def copyCells (src : Buffer) (n : Nat) (dst : Buffer) : Except Fault Buffer :=
  forLoop (fun i d => (fetch src i).bind (store d i)) n dst

/-- Allocator bookkeeping: the number of `new[]` and of `delete[]` executed so far. -/
structure Heap where
  allocated : Nat
  released : Nat
deriving DecidableEq, Repr

/-- Source: one `new unsigned char[..]`. -/
def Heap.alloc (h : Heap) : Heap := { h with allocated := h.allocated + 1 }

/-- Source: one `delete[]`. -/
def Heap.free (h : Heap) : Heap := { h with released := h.released + 1 }

/-- Buffers allocated and not released. -/
def Heap.live (h : Heap) : Nat := h.allocated - h.released

/-! ## The data model -/

/-- Source: `struct Large { unsigned char* ptr; uint64_t size; }`. -/
structure Large where
  ptr : Buffer
  size : Nat
deriving DecidableEq, Repr

/-- Source: `struct Small { unsigned char characters[15]; unsigned char size : 7;
unsigned char flag : 1; }`. -/
structure Small where
  characters : Buffer
  size : Nat
  flag : Nat
deriving DecidableEq, Repr

/-- Source: `union _MicroString { Small S; Large L; }`. -/
inductive _MicroString where
  | S (s : Small)
  | L (l : Large)
deriving DecidableEq, Repr

/-- Source: `MS.S.flag`; on a `Large` it is bit 63 of `L.size`. -/
def _MicroString.flag : _MicroString → Nat
  | .S s => s.flag
  | .L l => l.size / 2 ^ 63 % 2

/-- Source: `MS.S.size`; on a `Large` it is bits 56..62 of `L.size`. -/
def _MicroString.smallSize : _MicroString → Nat
  | .S s => s.size
  | .L l => l.size / 2 ^ 56 % 128

/-- Source: `MS.L.size`; on a `Small` it is the little-endian value of bytes 8..15. -/
def _MicroString.largeSize : _MicroString → Nat
  | .L l => l.size
  | .S s =>
    ((List.range 7).map (fun j => (s.characters.getD (8 + j) none).getD 0 * 256 ^ j)).sum
      + (s.size % 128 + 128 * (s.flag % 2)) * 2 ^ 56

/-- Source: `MS.S.flag = f` executed on a `Large` whose size field holds `v`. -/
def withFlag (v f : Nat) : Nat := v % 2 ^ 63 + 2 ^ 63 * (f % 2)

/-- Source: `class MicroString { _MicroString MS; ... }`, together with the allocator
state of the execution it lives in. -/
structure MicroString where
  MS : _MicroString
  heap : Heap
deriving DecidableEq, Repr

namespace MicroString

/-- Source: `isSmall()`. -/
def isSmall (x : MicroString) : Bool := x.MS.flag == 0

/-- Source: `getSize()`, also the public `size()`. -/
def getSize (x : MicroString) : Nat :=
  if x.isSmall then
    sub64 SMALL_CHARACTER_SIZE x.MS.smallSize
  else
    x.MS.largeSize &&& BOTTOM_63_MASK

/-- Source: `getPtr()`: the bytes the returned pointer points to. For the small
representation these are the 16 bytes of the object itself: the 15 characters and the
byte that packs `size` (low 7 bits) and `flag` (top bit). -/
def getPtr (x : MicroString) : Except Fault Buffer :=
  if x.isSmall then
    match x.MS with
    | .S s => .ok (s.characters ++ [some (s.size % 128 + 128 * (s.flag % 2))])
    | .L _ => .error .inactiveMember
  else
    match x.MS with
    | .L l => .ok l.ptr
    | .S _ => .error .inactiveMember

/-- Source: `initializeAsSmall()`: `L.ptr = 0; L.size = 0;` zeroes the 16 bytes, then
`S.size = 15`. -/
def initializeAsSmall (x : MicroString) : MicroString :=
  { x with MS := .S ⟨List.replicate 15 (some 0), SMALL_CHARACTER_SIZE, 0⟩ }

/-- Source: `MicroString()`, run with allocator state `h`. The storage of a fresh object
holds nothing. -/
def create (h : Heap) : MicroString :=
  initializeAsSmall ⟨.S ⟨newArray 15, 0, 0⟩, h⟩

/-- The empty value in an execution that has not allocated anything. -/
def empty : MicroString := create ⟨0, 0⟩

/-- Source: `push(unsigned char c)`. -/
def push (c : Nat) (x : MicroString) : Except Fault MicroString :=
  let size := x.getSize
  if x.getSize < SMALL_CHARACTER_SIZE then
    -- Add to small string
    match x.MS with
    | .S s => do
      let cs ← store s.characters size (some c)
      pure { x with MS := .S { s with characters := cs, size := (s.size + 127) % 128 } }
    | .L _ => .error .inactiveMember
  else if x.getSize = SMALL_CHARACTER_SIZE then
    -- Convert from small to large
    match x.MS with
    | .S s => do
      let ptr := newArray FIRST_ALLOC_SIZE
      let ptr ← copyCells s.characters SMALL_CHARACTER_SIZE ptr
      let ptr ← store ptr SMALL_CHARACTER_SIZE (some c)
      let ptr ← store ptr (SMALL_CHARACTER_SIZE + 1) (some 0)
      pure ⟨.L ⟨ptr, withFlag (SMALL_CHARACTER_SIZE + 1) 1⟩, x.heap.alloc⟩
    | .L _ => .error .inactiveMember
  else
    -- Add to large string
    match x.MS with
    | .L l =>
      let newSize := add64 size 2
      if newSize < FIRST_ALLOC_SIZE then do
        let ptr ← store l.ptr size (some c)
        let ptr ← store ptr (add64 size 1) (some 0)
        pure ⟨.L ⟨ptr, add64 l.size 1⟩, x.heap⟩
      else do
        let (ptr, heap) ←
          if newSize &&& sub64 newSize 1 = 0 then do
            -- Double allocated size if newSize is a power of 2
            let p ← copyCells l.ptr size (newArray (mul64 newSize 2))
            pure (p, x.heap.alloc.free)
          else
            pure (l.ptr, x.heap)
        let ptr ← store ptr size (some c)
        let ptr ← store ptr (add64 size 1) (some 0)
        pure ⟨.L ⟨ptr, add64 l.size 1⟩, heap⟩
    | .S _ => .error .inactiveMember

/-- Source: `at(std::size_t i)`. -/
def «at» (x : MicroString) (i : Nat) : Except Fault Nat :=
  if x.isSmall then
    match x.MS with
    | .S s => load s.characters i
    | .L _ => .error .inactiveMember
  else
    match x.MS with
    | .L l => load l.ptr i
    | .S _ => .error .inactiveMember

/-- Source: `pop()`: the removed byte and the object afterwards. -/
def pop (x : MicroString) : Except Fault (Nat × MicroString) :=
  let size := x.getSize
  if size ≤ SMALL_CHARACTER_SIZE then
    match x.MS with
    | .S s => do
      let c ← load s.characters (sub64 size 1)
      let cs ← store s.characters (sub64 size 1) (some 0)
      pure (c, { x with MS := .S { s with characters := cs, size := (s.size + 1) % 128 } })
    | .L _ => .error .inactiveMember
  else
    match x.MS with
    | .L l =>
      let newSize := sub64 size 1
      do
        let c ← load l.ptr newSize
        if newSize = SMALL_CHARACTER_SIZE then do
          -- Convert to small if need be
          let cs ← copyCells l.ptr SMALL_CHARACTER_SIZE (newArray 15)
          pure (c, ⟨.S ⟨cs, 0, 0⟩, x.heap⟩)
        else do
          let (ptr, heap) ←
            if newSize &&& sub64 newSize 1 = 0 then do
              -- Half allocated size if newSize is a power of 2
              let p ← copyCells l.ptr size (newArray (add64 newSize 1))
              pure (p, x.heap.alloc.free)
            else
              pure (l.ptr, x.heap)
          let ptr ← store ptr newSize (some 0)
          pure (c, ⟨.L ⟨ptr, sub64 l.size 1⟩, heap⟩)
    | .S _ => .error .inactiveMember

/-- Source: `MicroString(const MicroString& other)`, run in the allocator state of
`other`. -/
def copy (other : MicroString) : Except Fault MicroString :=
  if other.isSmall then
    match other.MS with
    | .S o => do
      let cs ← copyCells o.characters SMALL_CHARACTER_SIZE (newArray 15)
      pure ⟨.S ⟨cs, o.size, o.flag⟩, other.heap⟩
    | .L _ => .error .inactiveMember
  else
    forLoop (fun i x => (other.at i).bind (fun c => x.push c)) other.getSize
      (create other.heap)

/-- Source: `~MicroString()`: the allocator state after the object is destroyed. -/
def destroy (x : MicroString) : Except Fault Heap :=
  if !x.isSmall then
    match x.MS with
    | .L _ => .ok x.heap.free
    | .S _ => .error .inactiveMember
  else
    .ok x.heap

/-- A run of `push` calls, one per byte, in order (the body of the constructors
`MicroString(const std::string&)` and `MicroString(const char*, std::size_t)`). -/
def pushAll : List Nat → MicroString → Except Fault MicroString
  | [], x => .ok x
  | c :: cs, x => (x.push c).bind (pushAll cs)

/-- Source: `MicroString(const std::string& str)`, from a fresh allocator state. -/
def ofBytes (str : List Nat) : Except Fault MicroString :=
  pushAll str empty

/-- A run of `k` calls of `pop`: the bytes returned, in the order they were returned, and
the object afterwards. -/
def popN : Nat → MicroString → Except Fault (List Nat × MicroString)
  | 0, x => .ok ([], x)
  | k + 1, x =>
    (x.pop).bind (fun r => (popN k r.2).bind (fun q => .ok (r.1 :: q.1, q.2)))

end MicroString

/-! ## Specification vocabulary -/

/-- The states reachable from the empty value by `push` and by `pop` on a non-empty
value, every call returning normally. -/
inductive Reachable : MicroString → Prop where
  | empty : Reachable MicroString.empty
  | push (c : Nat) (x y : MicroString) :
      Reachable x → x.push c = .ok y → Reachable y
  | pop (c : Nat) (x y : MicroString) :
      Reachable x → 0 < x.getSize → x.pop = .ok (c, y) → Reachable y

/-- The allocated size of the heap buffer, which the code never stores: the number of
bytes obtained from `new[]`; `none` in the inline representation. -/
def MicroString.bufferSize (x : MicroString) : Option Nat :=
  match x.MS with
  | .L l => some l.ptr.length
  | .S _ => none

/-- The union value `m` stores the byte list `bs`: inline with zero padding and the
remaining counter, or on the heap with the terminator behind the last byte. -/
def Rep (m : _MicroString) (bs : List Nat) : Prop :=
  match m with
  | .S s =>
    s.flag = 0 ∧ bs.length ≤ 15 ∧ s.size = 15 - bs.length ∧
      s.characters = (bs ++ List.replicate (15 - bs.length) 0).map some
  | .L l =>
    16 ≤ bs.length ∧ bs.length + 2 ≤ 2 ^ 63 ∧ l.size = 2 ^ 63 + bs.length ∧
      bs.length < l.ptr.length ∧ ∀ i, i ≤ bs.length → l.ptr[i]? = some ((bs ++ [0])[i]?)

/-- The allocated size `cap` of a buffer that was only ever grown, at length `n`:
32 up to length 30, then the smallest power of two that is at least `n + 2`. -/
def GrownCap (n cap : Nat) : Prop :=
  ∃ k, 5 ≤ k ∧ cap = 2 ^ k ∧ n + 2 ≤ 2 ^ k ∧ (k = 5 ∨ 2 ^ (k - 1) < n + 2)

/-- The union value `m` stores `bs` and, when on the heap, its buffer has the size the
growth policy gives it. -/
def Built (m : _MicroString) (bs : List Nat) : Prop :=
  Rep m bs ∧
    match m with
    | .S _ => True
    | .L l => GrownCap bs.length l.ptr.length

/-- The states reachable from the empty value by `push`, by `pop` on a non-empty value
and by copy construction, every call returning normally. -/
inductive ReachableWithCopy : MicroString → Prop where
  | empty : ReachableWithCopy MicroString.empty
  | push (c : Nat) (x y : MicroString) :
      ReachableWithCopy x → x.push c = .ok y → ReachableWithCopy y
  | pop (c : Nat) (x y : MicroString) :
      ReachableWithCopy x → 0 < x.getSize → x.pop = .ok (c, y) → ReachableWithCopy y
  | copy (x y : MicroString) :
      ReachableWithCopy x → x.copy = .ok y → ReachableWithCopy y

/-- The states reachable from the empty value by `push` and by those `pop` calls on a
non-empty value that leave the allocator untouched (no shrink step). -/
inductive ReachableNoShrink : MicroString → Prop where
  | empty : ReachableNoShrink MicroString.empty
  | push (c : Nat) (x y : MicroString) :
      ReachableNoShrink x → x.push c = .ok y → ReachableNoShrink y
  | pop (c : Nat) (x y : MicroString) :
      ReachableNoShrink x → 0 < x.getSize → x.pop = .ok (c, y) → y.heap = x.heap →
        ReachableNoShrink y

/-- One append followed by one removeLast: the object afterwards. -/
def MicroString.appendRemove (c : Nat) (x : MicroString) : Except Fault MicroString :=
  (x.push c).bind (fun y => (y.pop).bind (fun r => .ok r.2))

/-- A run of append/removeLast cycles, one per byte of the list. -/
def MicroString.appendRemoveAll : List Nat → MicroString → Except Fault MicroString
  | [], x => .ok x
  | c :: cs, x => (x.appendRemove c).bind (MicroString.appendRemoveAll cs)

/-! ## Machine arithmetic -/

theorem add64_small (a b : Nat) (h : a + b < 2 ^ 64) : add64 a b = a + b := by
  unfold add64
  exact Nat.mod_eq_of_lt h

theorem sub64_small (a b : Nat) (hb : b ≤ a) (ha : a < 2 ^ 64) : sub64 a b = a - b := by
  unfold sub64
  have hb2 : b % 2 ^ 64 = b := Nat.mod_eq_of_lt (by omega)
  rw [hb2]
  have : a + 2 ^ 64 - b = (a - b) + 2 ^ 64 := by omega
  rw [this, Nat.add_mod_right]
  exact Nat.mod_eq_of_lt (by omega)

theorem mul64_small (a b : Nat) (h : a * b < 2 ^ 64) : mul64 a b = a * b := by
  unfold mul64
  exact Nat.mod_eq_of_lt h

/-- The test `(n & (n - 1)) == 0` succeeds on a power of two. -/
theorem land_pred_two_pow (k : Nat) : 2 ^ k &&& (2 ^ k - 1) = 0 := by
  rw [Nat.and_pow_two_sub_one_eq_mod]
  exact Nat.mod_self _

/-- The test `(n & (n - 1)) == 0` succeeds on a positive `n` only if `n` is a power of
two. -/
theorem two_pow_of_land_pred (n : Nat) (hn : 1 ≤ n) (h : n &&& (n - 1) = 0) :
    ∃ k, n = 2 ^ k := by
  have hlo : 2 ^ n.log2 ≤ n := Nat.log2_self_le (by omega)
  have hhi : n < 2 ^ (n.log2 + 1) := Nat.lt_log2_self
  rw [Nat.pow_succ] at hhi
  generalize n.log2 = k at hlo hhi
  refine ⟨k, ?_⟩
  by_contra hne
  have h1 : n.testBit k = true := by
    have e : n = 2 ^ k + (n - 2 ^ k) := by omega
    rw [e, Nat.testBit_two_pow_add_eq, Nat.testBit_lt_two_pow (by omega)]
    rfl
  have h2 : (n - 1).testBit k = true := by
    have e : n - 1 = 2 ^ k + (n - 1 - 2 ^ k) := by omega
    rw [e, Nat.testBit_two_pow_add_eq, Nat.testBit_lt_two_pow (by omega)]
    rfl
  have h3 : (n &&& (n - 1)).testBit k = true := by
    rw [Nat.testBit_and, h1, h2]
    rfl
  rw [h, Nat.zero_testBit] at h3
  exact Bool.false_ne_true h3

/-- The power-of-two test of `push` and `pop`, on a positive number. -/
theorem land_pred_eq_zero_iff (n : Nat) (hn : 1 ≤ n) :
    n &&& (n - 1) = 0 ↔ ∃ k, n = 2 ^ k := by
  constructor
  · exact two_pow_of_land_pred n hn
  · rintro ⟨k, rfl⟩
    exact land_pred_two_pow k

/-! ## Arrays -/

theorem store_ok {α : Type} (a : List α) (i : Nat) (v : α) (h : i < a.length) :
    store a i v = .ok (a.set i v) := by
  unfold store
  rw [if_pos h]

theorem store_error {α : Type} (a : List α) (i : Nat) (v : α) (h : a.length ≤ i) :
    store a i v = .error .outOfBounds := by
  unfold store
  rw [if_neg (by omega)]

theorem fetch_ok {α : Type} (a : List α) (i : Nat) (v : α) (h : a[i]? = some v) :
    fetch a i = .ok v := by
  unfold fetch
  rw [h]

theorem load_ok (a : Buffer) (i : Nat) (v : Nat) (h : a[i]? = some (some v)) :
    load a i = .ok v := by
  unfold load
  rw [h]

/-- The copy loop succeeds when both arrays have `n` cells, and gives the first `n` cells
of the source followed by the untouched cells of the destination. -/
theorem copyCells_ok (src : Buffer) (n : Nat) (dst : Buffer)
    (hs : n ≤ src.length) (hd : n ≤ dst.length) :
    copyCells src n dst = .ok (src.take n ++ dst.drop n) := by
  unfold copyCells
  induction n with
  | zero => simp [forLoop]
  | succ n ih =>
    have hlt : n < src.length := by omega
    rw [forLoop, ih (by omega) (by omega)]
    simp only [Except.bind]
    rw [fetch_ok src n src[n] (List.getElem?_eq_getElem hlt)]
    simp only [Except.bind]
    rw [store_ok _ _ _ (by simp; omega)]
    congr 1
    apply List.ext_getElem?
    intro i
    have m1 : min n src.length = n := Nat.min_eq_left (Nat.le_of_lt hlt)
    have m2 : min (n + 1) src.length = n + 1 := Nat.min_eq_left hs
    simp only [List.getElem?_set, List.getElem?_append, List.getElem?_take,
      List.getElem?_drop, List.length_append, List.length_take, List.length_drop, m1, m2]
    have hsn : src[n]? = some src[n] := List.getElem?_eq_getElem hlt
    by_cases h1 : n = i
    · subst h1
      have : n < n + (dst.length - n) := by omega
      simp [this, hsn]
    · by_cases h2 : i < n
      · have : i < n + 1 := by omega
        simp [h1, h2, this]
      · have h3 : ¬ i < n + 1 := by omega
        have h4 : n + (i - n) = n + 1 + (i - (n + 1)) := by omega
        simp [h1, h2, h3, h4]

/-- The copy loop faults when the destination has fewer than `n` cells. -/
theorem copyCells_short (src : Buffer) (n : Nat) (dst r : Buffer)
    (h : copyCells src n dst = .ok r) : n ≤ dst.length ∧ r.length = dst.length := by
  unfold copyCells at h
  induction n generalizing r with
  | zero =>
    simp only [forLoop] at h
    cases h
    simp
  | succ n ih =>
    rw [forLoop] at h
    cases hq : forLoop (fun i d => (fetch src i).bind (store d i)) n dst with
    | error e => rw [hq] at h; simp [Except.bind] at h
    | ok q =>
      rw [hq] at h
      have hq2 := ih q hq
      simp only [Except.bind] at h
      cases hf : fetch src n with
      | error e => rw [hf] at h; simp at h
      | ok v =>
        rw [hf] at h
        simp only [store] at h
        by_cases hlt : n < q.length
        · rw [if_pos hlt] at h
          cases h
          simp
          omega
        · rw [if_neg hlt] at h
          cases h

/-! ## What a represented value answers -/

theorem rep_small_iff (m : _MicroString) (bs : List Nat) (h : Rep m bs) :
    m.flag = 0 ↔ bs.length ≤ 15 := by
  cases m with
  | S s =>
    obtain ⟨hf, hl, -, -⟩ := h
    simp [_MicroString.flag, hf, hl]
  | L l =>
    obtain ⟨h16, hmax, hsz, -, -⟩ := h
    simp only [_MicroString.flag, hsz]
    omega

theorem rep_isSmall (x : MicroString) (bs : List Nat) (h : Rep x.MS bs) :
    x.isSmall = decide (bs.length ≤ 15) := by
  have := rep_small_iff x.MS bs h
  unfold MicroString.isSmall
  by_cases hb : bs.length ≤ 15
  · simp [hb, this.2 hb]
  · have : x.MS.flag ≠ 0 := fun e => hb (this.1 e)
    simp [hb, this]

theorem rep_getSize (x : MicroString) (bs : List Nat) (h : Rep x.MS bs) :
    x.getSize = bs.length := by
  unfold MicroString.getSize
  rw [rep_isSmall x bs h]
  obtain ⟨m, hp⟩ := x
  cases m with
  | S s =>
    obtain ⟨hf, hl, hs, -⟩ := h
    simp only [hl, decide_True, if_true, _MicroString.smallSize, hs, SMALL_CHARACTER_SIZE]
    rw [sub64_small _ _ (by omega) (by norm_num)]
    omega
  | L l =>
    obtain ⟨h16, hmax, hsz, -, -⟩ := h
    have : ¬ bs.length ≤ 15 := by omega
    simp only [this, decide_False, _MicroString.largeSize, hsz, BOTTOM_63_MASK]
    rw [if_neg (by simp), Nat.and_pow_two_sub_one_eq_mod]
    omega

theorem rep_at (x : MicroString) (bs : List Nat) (h : Rep x.MS bs) (i : Nat)
    (hi : i < bs.length) : x.at i = .ok bs[i] := by
  unfold MicroString.at
  rw [rep_isSmall x bs h]
  obtain ⟨m, hp⟩ := x
  cases m with
  | S s =>
    obtain ⟨hf, hl, hs, hc⟩ := h
    simp only [hl, decide_True, if_true]
    apply load_ok
    rw [hc, List.getElem?_map, List.getElem?_append_left hi, List.getElem?_eq_getElem hi]
    rfl
  | L l =>
    obtain ⟨h16, hmax, hsz, hcap, hc⟩ := h
    have : ¬ bs.length ≤ 15 := by omega
    simp only [this, decide_False]
    rw [if_neg (by simp)]
    apply load_ok
    rw [hc i (by omega), List.getElem?_append_left hi, List.getElem?_eq_getElem hi]

/-! ## `push` on a represented value -/

/-- Writing the new byte and the terminator behind the stored bytes. -/
theorem getElem?_write_two (p : Buffer) (bs : List Nat) (c : Nat)
    (hlen : bs.length + 2 ≤ p.length)
    (hpre : ∀ i, i < bs.length → p[i]? = some (bs[i]?)) (i : Nat)
    (hi : i ≤ (bs ++ [c]).length) :
    ((p.set bs.length (some c)).set (bs.length + 1) (some 0))[i]? =
      some (((bs ++ [c]) ++ [0])[i]?) := by
  simp only [List.length_append, List.length_singleton] at hi
  simp only [List.getElem?_set, List.length_set]
  by_cases h1 : bs.length + 1 = i
  · subst h1
    have : bs.length + 1 < p.length := by omega
    have e : ((bs ++ [c]) ++ [0])[bs.length + 1]? = some 0 := by
      rw [List.getElem?_append_right (by simp)]
      simp
    simp only [this, if_true, e]
  · by_cases h2 : bs.length = i
    · subst h2
      have : bs.length < p.length := by omega
      have e : ((bs ++ [c]) ++ [0])[bs.length]? = some c := by
        rw [List.getElem?_append_left (by simp), List.getElem?_append_right (by simp)]
        simp
      simp only [this, h1, if_true, if_false, e]
    · have h3 : i < bs.length := by omega
      simp only [h1, h2, if_false]
      rw [hpre i h3, List.append_assoc, List.getElem?_append_left h3]

theorem push_small (x : MicroString) (s : Small) (bs : List Nat) (c : Nat)
    (hx : x.MS = .S s) (h : Rep x.MS bs) (hn : bs.length < 15) :
    ∃ y, x.push c = .ok y ∧ Rep y.MS (bs ++ [c]) ∧ y.heap = x.heap ∧
      y.MS.flag = 0 := by
  have hsz := rep_getSize x bs h
  unfold MicroString.push
  simp only [hsz, SMALL_CHARACTER_SIZE, hn, if_true, hx]
  rw [hx] at h
  obtain ⟨hf, hl, hs, hc⟩ := h
  have hlen : s.characters.length = 15 := by
    rw [hc]
    simp
    omega
  rw [store_ok _ _ _ (by omega)]
  refine ⟨_, rfl, ?_, rfl, hf⟩
  refine ⟨hf, by simp; omega, ?_, ?_⟩
  · simp only [hs, List.length_append, List.length_singleton]
    omega
  · simp only [hc]
    apply List.ext_getElem?
    intro i
    simp only [List.getElem?_set, List.getElem?_map, List.getElem?_append,
      List.getElem?_replicate, List.length_map, List.length_append, List.length_replicate,
      List.length_singleton]
    by_cases h1 : bs.length = i
    · subst h1
      have : bs.length < bs.length + (15 - bs.length) := by omega
      simp [this]
    · by_cases h2 : i < bs.length
      · have : i < bs.length + 1 := by omega
        simp [h1, h2, this]
      · have h3 : ¬ i < bs.length + 1 := by omega
        simp only [h1, h2, h3, if_false]
        by_cases h4 : i < 15
        · have a : i - bs.length < 15 - bs.length := by omega
          have b : i - (bs.length + 1) < 15 - (bs.length + 1) := by omega
          simp only [a, b, if_true]
        · have a : ¬ i - bs.length < 15 - bs.length := by omega
          have b : ¬ i - (bs.length + 1) < 15 - (bs.length + 1) := by omega
          simp only [a, b, if_false]

theorem push_promote (x : MicroString) (s : Small) (bs : List Nat) (c : Nat)
    (hx : x.MS = .S s) (h : Rep x.MS bs) (hn : bs.length = 15) :
    ∃ y l, x.push c = .ok y ∧ y.MS = .L l ∧ l.ptr.length = 32 ∧
      Rep y.MS (bs ++ [c]) ∧ y.heap = x.heap.alloc := by
  have hsz := rep_getSize x bs h
  unfold MicroString.push
  simp only [hsz, SMALL_CHARACTER_SIZE, hn, if_true, hx, lt_irrefl, if_false,
    FIRST_ALLOC_SIZE]
  rw [hx] at h
  obtain ⟨hf, hl, hs, hc⟩ := h
  have hc2 : s.characters = bs.map some := by
    rw [hc, hn]
    simp
  have hlen : s.characters.length = 15 := by
    rw [hc2]
    simp [hn]
  rw [copyCells_ok _ _ _ (by omega) (by simp [newArray])]
  simp only [bind, Except.bind, pure, Except.pure]
  have hpl : (List.take 15 s.characters ++ List.drop 15 (newArray 32)).length = 32 := by
    simp [newArray, hlen]
  rw [store_ok _ _ _ (by omega)]
  simp only []
  rw [store_ok _ _ _ (by simp only [List.length_set]; omega)]
  refine ⟨_, _, rfl, rfl, by simp only [List.length_set]; exact hpl, ?_, rfl⟩
  refine ⟨by simp; omega, by simp; omega, ?_, by simp only [List.length_set, hpl]; simp; omega,
    ?_⟩
  · simp [withFlag, hn]
  · intro i hi
    have hw := getElem?_write_two (List.take 15 s.characters ++ List.drop 15 (newArray 32))
      bs c (by omega) (by
        intro j hj
        rw [List.getElem?_append_left (by simp [hlen]; omega), List.getElem?_take_of_lt (by omega),
          hc2, List.getElem?_map, List.getElem?_eq_getElem hj]
        rfl) i hi
    rw [hn] at hw
    exact hw

/-- The grow test of `push`, written with the machine operations, at a length below
`2 ^ 63`. -/
theorem grow_test_iff (n : Nat) (hn : n + 2 ≤ 2 ^ 63) :
    (add64 n 2 &&& sub64 (add64 n 2) 1 = 0) ↔ ∃ k, n + 2 = 2 ^ k := by
  rw [add64_small _ _ (by omega), sub64_small _ _ (by omega) (by omega)]
  exact land_pred_eq_zero_iff (n + 2) (by omega)

theorem push_large_inplace (x : MicroString) (l : Large) (bs : List Nat) (c : Nat)
    (hx : x.MS = .L l) (h : Rep x.MS bs)
    (hg : bs.length + 2 < 32 ∨ ¬ ∃ k, bs.length + 2 = 2 ^ k) :
    (bs.length + 2 ≤ l.ptr.length →
      ∃ y l2, x.push c = .ok y ∧ y.MS = .L l2 ∧ l2.ptr.length = l.ptr.length ∧
        Rep y.MS (bs ++ [c]) ∧ y.heap = x.heap) ∧
    (l.ptr.length < bs.length + 2 → x.push c = .error .outOfBounds) := by
  have hsz := rep_getSize x bs h
  rw [hx] at h
  obtain ⟨h16, hmax, hs, hcap, hc⟩ := h
  have c1 : ¬ bs.length < 15 := by omega
  have c2 : ¬ bs.length = 15 := by omega
  have hno : bs.length + 3 ≤ 2 ^ 63 := by
    rcases hg with hg | hg
    · omega
    · by_contra hcon
      exact hg ⟨63, by omega⟩
  have a1 : add64 bs.length 1 = bs.length + 1 := add64_small _ _ (by omega)
  have a2 : add64 bs.length 2 = bs.length + 2 := add64_small _ _ (by omega)
  have a3 : add64 l.size 1 = 2 ^ 63 + (bs.length + 1) := by
    rw [hs, add64_small _ _ (by omega)]
    omega
  have ht := grow_test_iff bs.length hmax
  rw [a2] at ht
  have hpush : x.push c =
      (store l.ptr bs.length (some c)).bind (fun p =>
        (store p (bs.length + 1) (some 0)).bind (fun q =>
          .ok ⟨.L ⟨q, 2 ^ 63 + (bs.length + 1)⟩, x.heap⟩)) := by
    unfold MicroString.push
    simp only [hsz, SMALL_CHARACTER_SIZE, c1, c2, if_false, hx, FIRST_ALLOC_SIZE, a1, a2, a3]
    by_cases h32 : bs.length + 2 < 32
    · simp only [h32, if_true]
      rfl
    · have hnp : ¬ ∃ k, bs.length + 2 = 2 ^ k := by
        rcases hg with hg | hg
        · exact absurd hg h32
        · exact hg
      have hnt : ¬ ((bs.length + 2) &&& sub64 (bs.length + 2) 1 = 0) := fun e => hnp (ht.1 e)
      simp only [h32, hnt, if_false]
      rfl
  rw [hpush]
  constructor
  · intro hroom
    rw [store_ok _ _ _ (by omega)]
    simp only [Except.bind]
    rw [store_ok _ _ _ (by simp only [List.length_set]; omega)]
    refine ⟨_, _, rfl, rfl, by simp only [List.length_set], ?_, rfl⟩
    refine ⟨by simp; omega, by simp; omega, by simp, by simp only [List.length_set]; simp; omega,
      ?_⟩
    intro i hi
    exact getElem?_write_two l.ptr bs c hroom (by
      intro j hj
      rw [hc j (by omega), List.getElem?_append_left hj]) i hi
  · intro hroom
    rw [store_ok _ _ _ (by omega)]
    simp only [Except.bind]
    rw [store_error _ _ _ (by simp only [List.length_set]; omega)]

theorem push_large_grow (x : MicroString) (l : Large) (bs : List Nat) (c : Nat)
    (hx : x.MS = .L l) (h : Rep x.MS bs)
    (h32 : 32 ≤ bs.length + 2) (hk : ∃ k, bs.length + 2 = 2 ^ k) :
    (bs.length + 3 ≤ 2 ^ 63 →
      ∃ y l2, x.push c = .ok y ∧ y.MS = .L l2 ∧ l2.ptr.length = 2 * (bs.length + 2) ∧
        Rep y.MS (bs ++ [c]) ∧ y.heap = x.heap.alloc.free) ∧
    (bs.length + 2 = 2 ^ 63 → ∀ y, x.push c ≠ .ok y) := by
  have hsz := rep_getSize x bs h
  rw [hx] at h
  obtain ⟨h16, hmax, hs, hcap, hc⟩ := h
  have c1 : ¬ bs.length < 15 := by omega
  have c2 : ¬ bs.length = 15 := by omega
  have c3 : ¬ bs.length + 2 < 32 := by omega
  have a1 : add64 bs.length 1 = bs.length + 1 := add64_small _ _ (by omega)
  have a2 : add64 bs.length 2 = bs.length + 2 := add64_small _ _ (by omega)
  have ht := grow_test_iff bs.length hmax
  rw [a2] at ht
  have ht2 := ht.2 hk
  have hpush : x.push c =
      (copyCells l.ptr bs.length (newArray (mul64 (bs.length + 2) 2))).bind (fun p0 =>
        (store p0 bs.length (some c)).bind (fun p =>
          (store p (bs.length + 1) (some 0)).bind (fun q =>
            .ok ⟨.L ⟨q, add64 l.size 1⟩, x.heap.alloc.free⟩))) := by
    unfold MicroString.push
    simp only [hsz, SMALL_CHARACTER_SIZE, c1, c2, c3, if_false, hx, FIRST_ALLOC_SIZE, a1, a2,
      ht2, if_true]
    cases copyCells l.ptr bs.length (newArray (mul64 (bs.length + 2) 2)) <;> rfl
  rw [hpush]
  constructor
  · intro hroom
    have a3 : add64 l.size 1 = 2 ^ 63 + (bs.length + 1) := by
      rw [hs, add64_small _ _ (by omega)]
      omega
    have a4 : mul64 (bs.length + 2) 2 = 2 * (bs.length + 2) := by
      rw [mul64_small _ _ (by omega)]
      omega
    rw [a3, a4, copyCells_ok _ _ _ (by omega) (by simp [newArray]; omega)]
    simp only [Except.bind]
    have hpl : (List.take bs.length l.ptr ++
        List.drop bs.length (newArray (2 * (bs.length + 2)))).length = 2 * (bs.length + 2) := by
      simp only [List.length_append, List.length_take, List.length_drop, newArray,
        List.length_replicate]
      omega
    rw [store_ok _ _ _ (by omega)]
    simp only []
    rw [store_ok _ _ _ (by simp only [List.length_set]; omega)]
    refine ⟨_, _, rfl, rfl, by simp only [List.length_set]; exact hpl, ?_, rfl⟩
    refine ⟨by simp; omega, by simp; omega, by simp,
      by simp only [List.length_set, hpl]; simp; omega, ?_⟩
    intro i hi
    exact getElem?_write_two _ bs c (by omega) (by
      intro j hj
      rw [List.getElem?_append_left (by simp; omega), List.getElem?_take_of_lt hj,
        hc j (by omega), List.getElem?_append_left hj]) i hi
  · intro h63 y hy
    have a4 : mul64 (bs.length + 2) 2 = 0 := by
      unfold mul64
      rw [h63]
      norm_num
    rw [a4] at hy
    cases hq : copyCells l.ptr bs.length (newArray 0) with
    | error e =>
      rw [hq] at hy
      simp [Except.bind] at hy
    | ok q =>
      have := (copyCells_short _ _ _ _ hq).1
      simp only [newArray, List.length_replicate] at this
      omega

/-- Whenever `push` returns, the value stores the old bytes followed by the new one. -/
theorem push_rep (x y : MicroString) (bs : List Nat) (c : Nat) (h : Rep x.MS bs)
    (hy : x.push c = .ok y) : Rep y.MS (bs ++ [c]) := by
  cases hm : x.MS with
  | S s =>
    have hl : bs.length ≤ 15 := by
      rw [hm] at h
      exact h.2.1
    by_cases hn : bs.length < 15
    · obtain ⟨y2, e, r, -⟩ := push_small x s bs c hm h hn
      rw [e] at hy
      cases hy
      exact r
    · obtain ⟨y2, l2, e, -, -, r, -⟩ := push_promote x s bs c hm h (by omega)
      rw [e] at hy
      cases hy
      exact r
  | L l =>
    have hb : bs.length + 2 ≤ 2 ^ 63 ∧ bs.length < l.ptr.length := by
      rw [hm] at h
      exact ⟨h.2.1, h.2.2.2.1⟩
    by_cases hg : bs.length + 2 < 32 ∨ ¬ ∃ k, bs.length + 2 = 2 ^ k
    · have hp := push_large_inplace x l bs c hm h hg
      by_cases hroom : bs.length + 2 ≤ l.ptr.length
      · obtain ⟨y2, l2, e, -, -, r, -⟩ := hp.1 hroom
        rw [e] at hy
        cases hy
        exact r
      · rw [hp.2 (by omega)] at hy
        cases hy
    · have h32 : 32 ≤ bs.length + 2 := by
        by_contra hc
        exact hg (Or.inl (by omega))
      have hk : ∃ k, bs.length + 2 = 2 ^ k := by
        by_contra hc
        exact hg (Or.inr hc)
      have hp := push_large_grow x l bs c hm h h32 hk
      by_cases hroom : bs.length + 3 ≤ 2 ^ 63
      · obtain ⟨y2, l2, e, -, -, r, -⟩ := hp.1 hroom
        rw [e] at hy
        cases hy
        exact r
      · exact absurd hy (hp.2 (by omega) y)

theorem two_pow_ge_32 (k : Nat) (hk : 5 ≤ k) : 32 ≤ 2 ^ k := by
  calc 32 = 2 ^ 5 := by norm_num
    _ ≤ 2 ^ k := Nat.pow_le_pow_right (by norm_num) hk

/-- A value that was only ever grown accepts one more byte, and stays such a value. -/
theorem push_built (x : MicroString) (bs : List Nat) (c : Nat) (h : Built x.MS bs)
    (hmax : bs.length + 3 ≤ 2 ^ 63) :
    ∃ y, x.push c = .ok y ∧ Built y.MS (bs ++ [c]) := by
  obtain ⟨hr, hcap⟩ := h
  cases hm : x.MS with
  | S s =>
    have hl : bs.length ≤ 15 := by
      rw [hm] at hr
      exact hr.2.1
    by_cases hn : bs.length < 15
    · obtain ⟨y, e, r, -, hf⟩ := push_small x s bs c hm hr hn
      refine ⟨y, e, r, ?_⟩
      cases hy : y.MS with
      | S s2 => trivial
      | L l2 =>
        exfalso
        rw [hy] at r
        have := r.1
        simp only [List.length_append, List.length_singleton] at this
        omega
    · obtain ⟨y, l2, e, hy, hlen, r, -⟩ := push_promote x s bs c hm hr (by omega)
      refine ⟨y, e, r, ?_⟩
      rw [hy]
      refine ⟨5, le_refl _, by rw [hlen]; norm_num, by simp; omega, Or.inl rfl⟩
  | L l =>
    rw [hm] at hcap
    obtain ⟨k, hk5, hck, hle, hmin⟩ := hcap
    have h2k := two_pow_ge_32 k hk5
    by_cases hg : bs.length + 2 < 32 ∨ ¬ ∃ k, bs.length + 2 = 2 ^ k
    · obtain ⟨y, l2, e, hy, hlen, r, -⟩ :=
        (push_large_inplace x l bs c hm hr hg).1 (by omega)
      refine ⟨y, e, r, ?_⟩
      rw [hy]
      have hne : bs.length + 2 ≠ 2 ^ k := by
        rcases hg with hg | hg
        · omega
        · exact fun e => hg ⟨k, e⟩
      refine ⟨k, hk5, by rw [hlen, hck], by simp; omega, ?_⟩
      rcases hmin with hmin | hmin
      · exact Or.inl hmin
      · exact Or.inr (by simp; omega)
    · have h32 : 32 ≤ bs.length + 2 := by
        by_contra hc
        exact hg (Or.inl (by omega))
      have hk : ∃ k, bs.length + 2 = 2 ^ k := by
        by_contra hc
        exact hg (Or.inr hc)
      obtain ⟨y, l2, e, hy, hlen, r, -⟩ := (push_large_grow x l bs c hm hr h32 hk).1 hmax
      refine ⟨y, e, r, ?_⟩
      rw [hy]
      obtain ⟨j, hj⟩ := hk
      have hj5 : 5 ≤ j := by
        by_contra hc
        have : 2 ^ j ≤ 2 ^ 4 := Nat.pow_le_pow_right (by norm_num) (by omega)
        omega
      refine ⟨j + 1, by omega, by rw [hlen, hj, Nat.pow_succ]; omega,
        by simp only [List.length_append, List.length_singleton]; rw [Nat.pow_succ]; omega,
        Or.inr ?_⟩
      simp only [List.length_append, List.length_singleton, Nat.add_sub_cancel]
      omega

theorem built_empty (h : Heap) : Built (MicroString.create h).MS [] := by
  refine ⟨⟨rfl, by simp, rfl, rfl⟩, trivial⟩

/-- A run of `push` calls on a value that was only ever grown returns, as long as the
length stays representable. -/
theorem pushAll_built (cs : List Nat) (x : MicroString) (bs : List Nat) (h : Built x.MS bs)
    (hmax : bs.length + cs.length + 2 ≤ 2 ^ 63) :
    ∃ y, x.pushAll cs = .ok y ∧ Built y.MS (bs ++ cs) := by
  induction cs generalizing x bs with
  | nil => exact ⟨x, rfl, by simpa using h⟩
  | cons c cs ih =>
    simp only [List.length_cons] at hmax
    obtain ⟨y, e, hb⟩ := push_built x bs c h (by omega)
    obtain ⟨z, e2, hz⟩ := ih y (bs ++ [c]) hb (by simp; omega)
    refine ⟨z, ?_, by simpa using hz⟩
    rw [MicroString.pushAll, e]
    exact e2

/-! ## `pop` on a represented value -/

theorem pop_small (x : MicroString) (s : Small) (bs : List Nat) (c : Nat)
    (hx : x.MS = .S s) (h : Rep x.MS (bs ++ [c])) :
    ∃ y, x.pop = .ok (c, y) ∧ Rep y.MS bs ∧ y.heap = x.heap := by
  have hsz := rep_getSize x _ h
  rw [hx] at h
  obtain ⟨hf, hl, hs, hc⟩ := h
  simp only [List.length_append, List.length_singleton] at hl hs hsz
  have hlen : s.characters.length = 15 := by
    rw [hc]
    simp
    omega
  have a1 : sub64 (bs.length + 1) 1 = bs.length := by
    rw [sub64_small _ _ (by omega) (by omega)]
    omega
  unfold MicroString.pop
  simp only [hsz, SMALL_CHARACTER_SIZE, hl, if_true, hx, a1]
  have hld : load s.characters bs.length = .ok c := by
    apply load_ok
    rw [hc, List.getElem?_map, List.getElem?_append_left (by simp),
      List.getElem?_append_right (by simp)]
    simp
  rw [hld, store_ok _ _ _ (by omega)]
  refine ⟨_, rfl, ?_, rfl⟩
  refine ⟨hf, by omega, ?_, ?_⟩
  · simp only [hs]
    omega
  · simp only [hc]
    apply List.ext_getElem?
    intro i
    simp only [List.getElem?_set, List.getElem?_map, List.getElem?_append,
      List.getElem?_replicate, List.length_map, List.length_append, List.length_replicate,
      List.length_singleton]
    by_cases h1 : bs.length = i
    · subst h1
      have a : bs.length < bs.length + 1 + (15 - (bs.length + 1)) := by omega
      have b : bs.length - bs.length < 15 - bs.length := by omega
      simp only [a, b, if_true, lt_irrefl, if_false]
      rfl
    · by_cases h2 : i < bs.length
      · have : i < bs.length + 1 := by omega
        simp only [h1, h2, this, if_true, if_false]
      · have h3 : ¬ i < bs.length + 1 := by omega
        simp only [h1, h2, h3, if_false]
        by_cases h4 : i < 15
        · have a : i - bs.length < 15 - bs.length := by omega
          have b : i - (bs.length + 1) < 15 - (bs.length + 1) := by omega
          simp only [a, b, if_true]
        · have a : ¬ i - bs.length < 15 - bs.length := by omega
          have b : ¬ i - (bs.length + 1) < 15 - (bs.length + 1) := by omega
          simp only [a, b, if_false]

/-- Calling `pop` on an empty inline value reads `characters[2 ^ 64 - 1]`. -/
theorem pop_empty (x : MicroString) (h : Rep x.MS []) : x.pop = .error .outOfBounds := by
  have hsz := rep_getSize x _ h
  cases hm : x.MS with
  | S s =>
    rw [hm] at h
    obtain ⟨hf, hl, hs, hc⟩ := h
    unfold MicroString.pop
    simp only [hsz, SMALL_CHARACTER_SIZE, List.length_nil, Nat.zero_le, if_true, hm]
    have : load s.characters (sub64 0 1) = .error .outOfBounds := by
      unfold load
      rw [List.getElem?_eq_none]
      rw [hc]
      simp [sub64]
    rw [this]
    rfl
  | L l =>
    rw [hm] at h
    have := h.1
    simp at this

/-- The facts every heap branch of `pop` starts from. -/
theorem pop_large_facts (x : MicroString) (l : Large) (bs : List Nat) (c : Nat)
    (hx : x.MS = .L l) (h : Rep x.MS (bs ++ [c])) :
    x.getSize = bs.length + 1 ∧ ¬ bs.length + 1 ≤ 15 ∧ sub64 (bs.length + 1) 1 = bs.length ∧
      load l.ptr bs.length = .ok c ∧ sub64 l.size 1 = 2 ^ 63 + bs.length ∧
      bs.length + 1 < l.ptr.length ∧ bs.length + 3 ≤ 2 ^ 63 ∧
      ∀ i, i < bs.length → l.ptr[i]? = some (bs[i]?) := by
  have hsz := rep_getSize x _ h
  rw [hx] at h
  obtain ⟨h16, hmax, hs, hcap, hc⟩ := h
  simp only [List.length_append, List.length_singleton] at h16 hmax hs hcap hsz hc
  refine ⟨hsz, by omega, ?_, ?_, ?_, hcap, hmax, ?_⟩
  · rw [sub64_small _ _ (by omega) (by omega)]
    omega
  · apply load_ok
    rw [hc bs.length (by omega), List.getElem?_append_left (by simp),
      List.getElem?_append_right (by simp)]
    simp
  · rw [hs, sub64_small _ _ (by omega) (by omega)]
    omega
  · intro i hi
    rw [hc i (by omega), List.getElem?_append_left (by simp; omega),
      List.getElem?_append_left hi]

/-- Demotion: the 16th byte is removed, the object is inline again, and no buffer is
released. -/
theorem pop_demote (x : MicroString) (l : Large) (bs : List Nat) (c : Nat)
    (hx : x.MS = .L l) (h : Rep x.MS (bs ++ [c])) (hn : bs.length = 15) :
    ∃ y, x.pop = .ok (c, y) ∧ Rep y.MS bs ∧ y.MS = .S ⟨bs.map some, 0, 0⟩ ∧
      y.heap = x.heap := by
  obtain ⟨hsz, hbig, a1, hld, -, hcap, -, hc⟩ := pop_large_facts x l bs c hx h
  have htake : List.take 15 l.ptr ++ List.drop 15 (newArray 15) = bs.map some := by
    apply List.ext_getElem?
    intro i
    simp only [List.getElem?_append, List.getElem?_take, List.getElem?_drop,
      List.length_take, newArray, List.getElem?_replicate, List.getElem?_map]
    have m : min 15 l.ptr.length = 15 := Nat.min_eq_left (by omega)
    rw [m]
    by_cases hi : i < 15
    · simp only [hi, if_true]
      rw [hc i (by omega), List.getElem?_eq_getElem (by omega)]
      rfl
    · have : ¬ 15 + (i - 15) < 15 := by omega
      simp only [hi, this, if_false]
      rw [List.getElem?_eq_none (by omega)]
      rfl
  unfold MicroString.pop
  simp only [hsz, SMALL_CHARACTER_SIZE, hbig, if_false, hx, a1, hld]
  simp only [bind, Except.bind, pure, Except.pure]
  rw [if_pos hn, copyCells_ok _ _ _ (by omega) (by simp [newArray]), htake]
  refine ⟨_, rfl, ?_, rfl, rfl⟩
  refine ⟨rfl, by omega, by simp [hn], ?_⟩
  simp [hn]

/-- The shrink test of `pop`, written with the machine operations. -/
theorem shrink_test_iff (n : Nat) (h1 : 1 ≤ n) (hn : n < 2 ^ 64) :
    (n &&& sub64 n 1 = 0) ↔ ∃ k, n = 2 ^ k := by
  rw [sub64_small _ _ h1 hn]
  exact land_pred_eq_zero_iff n h1

/-- Shrink: the new length is a power of two, the bytes move to a buffer of the new
length plus one. -/
theorem pop_shrink (x : MicroString) (l : Large) (bs : List Nat) (c : Nat)
    (hx : x.MS = .L l) (h : Rep x.MS (bs ++ [c])) (hn : bs.length ≠ 15)
    (hk : ∃ k, bs.length = 2 ^ k) :
    ∃ y l2, x.pop = .ok (c, y) ∧ Rep y.MS bs ∧ y.MS = .L l2 ∧
      l2.ptr.length = bs.length + 1 ∧ y.heap = x.heap.alloc.free := by
  obtain ⟨hsz, hbig, a1, hld, a3, hcap, hmax, hc⟩ := pop_large_facts x l bs c hx h
  have ht := (shrink_test_iff bs.length (by omega) (by omega)).2 hk
  have a2 : add64 bs.length 1 = bs.length + 1 := add64_small _ _ (by omega)
  unfold MicroString.pop
  simp only [hsz, SMALL_CHARACTER_SIZE, hbig, if_false, hx, a1, hld, hn, ht, if_true, a2, a3]
  rw [copyCells_ok _ _ _ (by omega) (by simp [newArray])]
  simp only [bind, Except.bind, pure, Except.pure]
  have hpl : (List.take (bs.length + 1) l.ptr ++
      List.drop (bs.length + 1) (newArray (bs.length + 1))).length = bs.length + 1 := by
    simp only [List.length_append, List.length_take, List.length_drop, newArray,
      List.length_replicate]
    omega
  rw [store_ok _ _ _ (by omega)]
  refine ⟨_, _, rfl, ?_, rfl, by simp only [List.length_set]; exact hpl, rfl⟩
  refine ⟨by omega, by omega, rfl, by simp only [List.length_set, hpl]; omega, ?_⟩
  intro i hi
  simp only [List.getElem?_set, hpl]
  by_cases h1 : bs.length = i
  · subst h1
    simp [List.getElem?_append_right]
  · have h2 : i < bs.length := by omega
    simp only [h1, if_false]
    rw [List.getElem?_append_left (by simp; omega), List.getElem?_take_of_lt (by omega),
      hc i h2, List.getElem?_append_left h2]

/-- Removal in place: the terminator is written over the removed byte. -/
theorem pop_inplace (x : MicroString) (l : Large) (bs : List Nat) (c : Nat)
    (hx : x.MS = .L l) (h : Rep x.MS (bs ++ [c])) (hn : bs.length ≠ 15)
    (hk : ¬ ∃ k, bs.length = 2 ^ k) :
    ∃ y l2, x.pop = .ok (c, y) ∧ Rep y.MS bs ∧ y.MS = .L l2 ∧
      l2.ptr.length = l.ptr.length ∧ y.heap = x.heap := by
  obtain ⟨hsz, hbig, a1, hld, a3, hcap, hmax, hc⟩ := pop_large_facts x l bs c hx h
  have ht : ¬ (bs.length &&& sub64 bs.length 1 = 0) :=
    fun e => hk ((shrink_test_iff bs.length (by omega) (by omega)).1 e)
  unfold MicroString.pop
  simp only [hsz, SMALL_CHARACTER_SIZE, hbig, if_false, hx, a1, hld, hn, ht, a3]
  simp only [bind, Except.bind, pure, Except.pure]
  rw [store_ok _ _ _ (by omega)]
  refine ⟨_, _, rfl, ?_, rfl, by simp only [List.length_set], rfl⟩
  refine ⟨by omega, by omega, rfl, by simp only [List.length_set]; omega, ?_⟩
  intro i hi
  simp only [List.getElem?_set]
  by_cases h1 : bs.length = i
  · subst h1
    have : bs.length < l.ptr.length := by omega
    simp [this, List.getElem?_append_right]
  · have h2 : i < bs.length := by omega
    simp only [h1, if_false]
    rw [hc i h2, List.getElem?_append_left h2]

/-- On a non-empty represented value `pop` returns: it gives the last byte and leaves
the bytes before it. -/
theorem pop_rep (x : MicroString) (bs : List Nat) (c : Nat) (h : Rep x.MS (bs ++ [c])) :
    ∃ y, x.pop = .ok (c, y) ∧ Rep y.MS bs := by
  cases hm : x.MS with
  | S s =>
    obtain ⟨y, e, r, -⟩ := pop_small x s bs c hm h
    exact ⟨y, e, r⟩
  | L l =>
    by_cases hn : bs.length = 15
    · obtain ⟨y, e, r, -⟩ := pop_demote x l bs c hm h hn
      exact ⟨y, e, r⟩
    · by_cases hk : ∃ k, bs.length = 2 ^ k
      · obtain ⟨y, l2, e, r, -⟩ := pop_shrink x l bs c hm h hn hk
        exact ⟨y, e, r⟩
      · obtain ⟨y, l2, e, r, -⟩ := pop_inplace x l bs c hm h hn hk
        exact ⟨y, e, r⟩

/-! ## Runs of operations -/

theorem pushAll_append (as cs : List Nat) (x : MicroString) :
    x.pushAll (as ++ cs) = (x.pushAll as).bind (MicroString.pushAll cs) := by
  induction as generalizing x with
  | nil => rfl
  | cons a as ih =>
    simp only [List.cons_append, MicroString.pushAll]
    cases x.push a with
    | error e => rfl
    | ok y => exact ih y

/-- Building a value from the empty one: the run of `push` calls returns, and the
result stores the bytes in a buffer sized by the growth policy. -/
theorem ofBytes_built (b : List Nat) (hb : b.length + 2 ≤ 2 ^ 63) :
    ∃ x, MicroString.ofBytes b = .ok x ∧ Built x.MS b := by
  have := pushAll_built b MicroString.empty [] (built_empty _) (by simpa using hb)
  simpa [MicroString.ofBytes] using this

/-- A run of `pop` calls on a value that stores `bs ++ cs` returns the bytes of `cs`
last to first and leaves `bs`. -/
theorem popN_rep (k : Nat) (x : MicroString) (bs cs : List Nat) (hk : cs.length = k)
    (h : Rep x.MS (bs ++ cs)) :
    ∃ y, x.popN k = .ok (cs.reverse, y) ∧ Rep y.MS bs := by
  induction k generalizing x cs with
  | zero =>
    have : cs = [] := List.length_eq_zero.1 hk
    subst this
    exact ⟨x, rfl, by simpa using h⟩
  | succ k ih =>
    rcases List.eq_nil_or_concat cs with e | ⟨cs2, c, e⟩
    · subst e
      simp at hk
    · rw [List.concat_eq_append] at e
      subst e
      simp only [List.length_append, List.length_singleton] at hk
      rw [← List.append_assoc] at h
      obtain ⟨y, e1, r1⟩ := pop_rep x (bs ++ cs2) c h
      obtain ⟨z, e2, r2⟩ := ih y cs2 (by omega) r1
      refine ⟨z, ?_, r2⟩
      rw [MicroString.popN, e1]
      simp only [Except.bind]
      rw [e2]
      simp

theorem rep_nil_of_size (x : MicroString) (bs : List Nat) (h : Rep x.MS bs)
    (hs : 0 < x.getSize) : ∃ bs2 c, bs = bs2 ++ [c] := by
  rw [rep_getSize x bs h] at hs
  rcases List.eq_nil_or_concat bs with e | ⟨bs2, c, e⟩
  · subst e
    simp at hs
  · exact ⟨bs2, c, by rw [e, List.concat_eq_append]⟩

/-- Every reachable state stores some byte list. -/
theorem reachable_rep (x : MicroString) (h : Reachable x) : ∃ bs, Rep x.MS bs := by
  induction h with
  | empty => exact ⟨[], (built_empty _).1⟩
  | push c x y _ hp ih =>
    obtain ⟨bs, hr⟩ := ih
    exact ⟨bs ++ [c], push_rep x y bs c hr hp⟩
  | pop c x y _ hs hp ih =>
    obtain ⟨bs, hr⟩ := ih
    obtain ⟨bs2, c2, e⟩ := rep_nil_of_size x bs hr hs
    subst e
    obtain ⟨y2, e2, r2⟩ := pop_rep x bs2 c2 hr
    rw [e2] at hp
    cases hp
    exact ⟨bs2, r2⟩

/-- An inline value is determined by the bytes it stores. -/
theorem rep_small_eq (m : _MicroString) (bs : List Nat) (h : Rep m bs)
    (hl : bs.length ≤ 15) :
    m = .S ⟨(bs ++ List.replicate (15 - bs.length) 0).map some, 15 - bs.length, 0⟩ := by
  cases m with
  | S s =>
    obtain ⟨hf, -, hs, hc⟩ := h
    cases s
    simp only at hf hs hc
    rw [hf, hs, hc]
  | L l =>
    have := h.1
    omega

/-- The bytes behind `getPtr()` of a represented value: the stored bytes, then a zero. -/
theorem rep_getPtr (x : MicroString) (bs : List Nat) (h : Rep x.MS bs) :
    ∃ v, x.getPtr = .ok v ∧ ∀ i, i ≤ bs.length → v[i]? = some ((bs ++ [0])[i]?) := by
  unfold MicroString.getPtr
  rw [rep_isSmall x bs h]
  cases hm : x.MS with
  | S s =>
    rw [hm] at h
    obtain ⟨hf, hl, hs, hc⟩ := h
    simp only [hl, decide_True, if_true]
    refine ⟨_, rfl, ?_⟩
    intro i hi
    rw [hc, hf, hs]
    by_cases h1 : i < bs.length
    · rw [List.getElem?_append_left (by simp; omega), List.getElem?_map,
        List.getElem?_append_left h1, List.getElem?_append_left h1,
        List.getElem?_eq_getElem h1]
      rfl
    · have hin : i = bs.length := by omega
      subst hin
      rw [@List.getElem?_append_right _ bs [0] bs.length (le_refl _)]
      by_cases h2 : bs.length < 15
      · rw [List.getElem?_append_left (by simp; omega), List.getElem?_map,
          List.getElem?_append_right (le_refl _)]
        have : 0 < 15 - bs.length := by omega
        simp [List.getElem?_replicate, this]
      · have h3 : bs.length = 15 := by omega
        rw [List.getElem?_append_right (by simp; omega)]
        simp [h3]
  | L l =>
    rw [hm] at h
    obtain ⟨h16, -, -, -, hc⟩ := h
    have : ¬ bs.length ≤ 15 := by omega
    simp only [this, decide_False]
    rw [if_neg (by simp)]
    exact ⟨_, rfl, hc⟩

/-! ## The claims -/

/-- C1 (round trip). For every byte sequence `b` whose length fits the 63-bit length
field, the run `append(b[0]), ..., append(b[n-1])` from the empty value returns, and after
each of its first `k` appends (every `k ≤ n`, so also at the end) the value has
`length() = k` and `byteAt(i) = b[i]` for every `i < k`: no append loses or corrupts a byte
written before. -/
theorem C1_round_trip (b : List Nat) (hb : b.length + 2 ≤ 2 ^ 63) (k : Nat)
    (hk : k ≤ b.length) :
    ∃ y x, MicroString.ofBytes (b.take k) = .ok y ∧ y.pushAll (b.drop k) = .ok x ∧
      MicroString.ofBytes b = .ok x ∧ y.getSize = k ∧
      ∀ i (hi : i < b.length), i < k → y.at i = .ok b[i] := by
  have hlen : (b.take k).length = k := by simp; omega
  obtain ⟨y, e, hy⟩ := ofBytes_built (b.take k) (by omega)
  obtain ⟨x, e2, -⟩ := pushAll_built (b.drop k) y (b.take k) hy (by simp; omega)
  refine ⟨y, x, e, e2, ?_, ?_, ?_⟩
  · have := pushAll_append (b.take k) (b.drop k) MicroString.empty
    rw [List.take_append_drop] at this
    unfold MicroString.ofBytes at e ⊢
    rw [this, e]
    exact e2
  · rw [rep_getSize y _ hy.1, hlen]
  · intro i hi hik
    rw [rep_at y _ hy.1 i (by omega)]
    congr 1
    exact List.getElem_take _

/-- Witness of C1 on 17 bytes, read back after the first 16 appends. -/
theorem C1_round_trip_witness :
    ([104, 101, 108, 108, 111, 32, 119, 111, 114, 108, 100, 33, 0, 255, 7, 8, 9].length
        + 2 ≤ 2 ^ 63 ∧ 16 ≤
      [104, 101, 108, 108, 111, 32, 119, 111, 114, 108, 100, 33, 0, 255, 7, 8, 9].length) ∧
    ∃ y x,
      MicroString.ofBytes
        ([104, 101, 108, 108, 111, 32, 119, 111, 114, 108, 100, 33, 0, 255, 7, 8, 9].take 16)
        = .ok y ∧
      y.pushAll ([104, 101, 108, 108, 111, 32, 119, 111, 114, 108, 100, 33, 0, 255, 7, 8,
        9].drop 16) = .ok x ∧
      MicroString.ofBytes
        [104, 101, 108, 108, 111, 32, 119, 111, 114, 108, 100, 33, 0, 255, 7, 8, 9] = .ok x ∧
      y.getSize = 16 ∧
      ∀ i (hi : i <
          [104, 101, 108, 108, 111, 32, 119, 111, 114, 108, 100, 33, 0, 255, 7, 8, 9].length),
        i < 16 → y.at i =
          .ok [104, 101, 108, 108, 111, 32, 119, 111, 114, 108, 100, 33, 0, 255, 7, 8, 9][i] :=
  ⟨⟨by decide, by decide⟩,
    C1_round_trip [104, 101, 108, 108, 111, 32, 119, 111, 114, 108, 100, 33, 0, 255, 7, 8, 9]
      (by decide) 16 (by decide)⟩

/-- C4 (removeLast postcondition). For every byte sequence `b` of representable length
`n ≥ 1` and every `1 ≤ k ≤ n`: building the value by appending `b` and calling
`removeLast()` `k` times returns `b[n-1], b[n-2], ..., b[n-k]` in this order (the first `k`
entries of `b` reversed) and leaves a value with `length() = n - k` and `byteAt(i) = b[i]`
for every `i < n - k`; shrink and demotion steps included. -/
theorem C4_removeLast_postcondition (b : List Nat) (k : Nat) (hb : b.length + 2 ≤ 2 ^ 63)
    (hk1 : 1 ≤ k) (hk : k ≤ b.length) :
    ∃ x y, MicroString.ofBytes b = .ok x ∧ x.popN k = .ok (b.reverse.take k, y) ∧
      y.getSize = b.length - k ∧
      ∀ i (hi : i < b.length), i < b.length - k → y.at i = .ok b[i] := by
  obtain ⟨x, e, hx⟩ := ofBytes_built b hb
  have hsplit : b.take (b.length - k) ++ b.drop (b.length - k) = b :=
    List.take_append_drop _ _
  have hr : Rep x.MS (b.take (b.length - k) ++ b.drop (b.length - k)) := by
    rw [hsplit]
    exact hx.1
  obtain ⟨y, e2, hy⟩ := popN_rep k x _ (b.drop (b.length - k)) (by simp; omega) hr
  have hlen : (b.take (b.length - k)).length = b.length - k := by simp
  refine ⟨x, y, e, ?_, ?_, ?_⟩
  · rw [e2, List.take_reverse]
  · rw [rep_getSize y _ hy, hlen]
  · intro i hi hik
    rw [rep_at y _ hy i (by omega)]
    congr 1
    exact List.getElem_take _

/-- Witness of C4: 18 bytes, three removals (one in place, the shrink at new length 16
and the demotion at new length 15). -/
theorem C4_removeLast_postcondition_witness :
    ([1, 2, 3, 4, 5, 6, 7, 8, 9, 10, 11, 12, 13, 14, 15, 16, 17, 18].length + 2 ≤ 2 ^ 63 ∧
      1 ≤ 3 ∧ 3 ≤ [1, 2, 3, 4, 5, 6, 7, 8, 9, 10, 11, 12, 13, 14, 15, 16, 17, 18].length) ∧
    ∃ x y,
      MicroString.ofBytes [1, 2, 3, 4, 5, 6, 7, 8, 9, 10, 11, 12, 13, 14, 15, 16, 17, 18]
        = .ok x ∧
      x.popN 3 = .ok ([1, 2, 3, 4, 5, 6, 7, 8, 9, 10, 11, 12, 13, 14, 15, 16, 17,
        18].reverse.take 3, y) ∧
      y.getSize = [1, 2, 3, 4, 5, 6, 7, 8, 9, 10, 11, 12, 13, 14, 15, 16, 17, 18].length - 3 ∧
      ∀ i (hi : i < [1, 2, 3, 4, 5, 6, 7, 8, 9, 10, 11, 12, 13, 14, 15, 16, 17, 18].length),
        i < [1, 2, 3, 4, 5, 6, 7, 8, 9, 10, 11, 12, 13, 14, 15, 16, 17, 18].length - 3 →
          y.at i = .ok [1, 2, 3, 4, 5, 6, 7, 8, 9, 10, 11, 12, 13, 14, 15, 16, 17, 18][i] :=
  ⟨⟨by decide, by decide, by decide⟩,
    C4_removeLast_postcondition [1, 2, 3, 4, 5, 6, 7, 8, 9, 10, 11, 12, 13, 14, 15, 16, 17, 18]
      3 (by decide) (by decide) (by decide)⟩

/-- C5 (inline/heap boundary). In every state reachable from the empty value by `push`
and by `pop` on a non-empty value, the representation is inline exactly when
`length() ≤ 15`. In particular a value built from 15 bytes is inline, the 16th append
makes it heap, and `pop` on that heap value of length 16 makes it inline again. -/
theorem C5_inline_iff_length_le_15 :
    (∀ x, Reachable x → (x.isSmall = true ↔ x.getSize ≤ 15)) ∧
    (∀ (b : List Nat) (c : Nat), b.length = 15 →
      ∃ x y z, MicroString.ofBytes b = .ok x ∧ x.isSmall = true ∧
        x.push c = .ok y ∧ y.isSmall = false ∧ y.getSize = 16 ∧
        y.pop = .ok (c, z) ∧ z.isSmall = true ∧ z.getSize = 15) := by
  constructor
  · intro x hx
    obtain ⟨bs, hr⟩ := reachable_rep x hx
    rw [rep_isSmall x bs hr, rep_getSize x bs hr]
    simp
  · intro b c hb
    obtain ⟨x, e, hx⟩ := ofBytes_built b (by omega)
    obtain ⟨y, e2, hy⟩ := push_built x b c hx (by omega)
    obtain ⟨z, e3, hz⟩ := pop_rep y b c hy.1
    refine ⟨x, y, z, e, ?_, e2, ?_, ?_, e3, ?_, ?_⟩
    · rw [rep_isSmall x b hx.1]
      simp [hb]
    · rw [rep_isSmall y _ hy.1]
      simp [hb]
    · rw [rep_getSize y _ hy.1]
      simp [hb]
    · rw [rep_isSmall z b hz]
      simp [hb]
    · rw [rep_getSize z b hz, hb]

/-- Witness of C5: the state after appending 104 and 105 to the empty value is
reachable, inline and of length 2; and the 15-byte boundary run on concrete bytes. -/
theorem C5_inline_iff_length_le_15_witness :
    (Reachable ⟨.S ⟨[some 104, some 105, some 0, some 0, some 0, some 0, some 0, some 0,
        some 0, some 0, some 0, some 0, some 0, some 0, some 0], 13, 0⟩, ⟨0, 0⟩⟩ ∧
      ((⟨.S ⟨[some 104, some 105, some 0, some 0, some 0, some 0, some 0, some 0,
        some 0, some 0, some 0, some 0, some 0, some 0, some 0], 13, 0⟩, ⟨0, 0⟩⟩ :
          MicroString).isSmall = true ↔
        (⟨.S ⟨[some 104, some 105, some 0, some 0, some 0, some 0, some 0, some 0,
        some 0, some 0, some 0, some 0, some 0, some 0, some 0], 13, 0⟩, ⟨0, 0⟩⟩ :
          MicroString).getSize ≤ 15)) ∧
    ([1, 2, 3, 4, 5, 6, 7, 8, 9, 10, 11, 12, 13, 14, 15].length = 15 ∧
      ∃ x y z, MicroString.ofBytes [1, 2, 3, 4, 5, 6, 7, 8, 9, 10, 11, 12, 13, 14, 15] = .ok x ∧
        x.isSmall = true ∧ x.push 16 = .ok y ∧ y.isSmall = false ∧ y.getSize = 16 ∧
        y.pop = .ok (16, z) ∧ z.isSmall = true ∧ z.getSize = 15) :=
  have hr : Reachable ⟨.S ⟨[some 104, some 105, some 0, some 0, some 0, some 0, some 0,
      some 0, some 0, some 0, some 0, some 0, some 0, some 0, some 0], 13, 0⟩, ⟨0, 0⟩⟩ :=
    Reachable.push 105 ⟨.S ⟨[some 104, some 0, some 0, some 0, some 0, some 0, some 0,
      some 0, some 0, some 0, some 0, some 0, some 0, some 0, some 0], 14, 0⟩, ⟨0, 0⟩⟩ _
      (Reachable.push 104 MicroString.empty _ Reachable.empty rfl) rfl
  ⟨⟨hr, C5_inline_iff_length_le_15.1 _ hr⟩,
    ⟨rfl, C5_inline_iff_length_le_15.2 [1, 2, 3, 4, 5, 6, 7, 8, 9, 10, 11, 12, 13, 14, 15] 16
      rfl⟩⟩

/-- C6 (shrink to inline). For every byte sequence `b` of representable length
`n ≥ 16`: building the value by appending `b` and calling `removeLast()` `n - 15` times
gives an inline value whose whole stored state (the 15 inline bytes `b[0..15)`, remaining
counter 0, discriminant 0) is that of the value built by appending only `b[0..15)`. -/
theorem C6_shrink_to_inline (b : List Nat) (h16 : 16 ≤ b.length)
    (hb : b.length + 2 ≤ 2 ^ 63) :
    ∃ x rs y z, MicroString.ofBytes b = .ok x ∧ x.popN (b.length - 15) = .ok (rs, y) ∧
      MicroString.ofBytes (b.take 15) = .ok z ∧ y.isSmall = true ∧ y.MS = z.MS ∧
      y.MS = .S ⟨(b.take 15).map some, 0, 0⟩ := by
  obtain ⟨x, e, hx⟩ := ofBytes_built b hb
  have hr : Rep x.MS (b.take 15 ++ b.drop 15) := by
    rw [List.take_append_drop]
    exact hx.1
  obtain ⟨y, e2, hy⟩ := popN_rep (b.length - 15) x _ (b.drop 15) (by simp) hr
  have hlen : (b.take 15).length = 15 := by simp; omega
  obtain ⟨z, e3, hz⟩ := ofBytes_built (b.take 15) (by omega)
  have ey := rep_small_eq y.MS _ hy (by omega)
  have ez := rep_small_eq z.MS _ hz.1 (by omega)
  rw [hlen] at ey ez
  simp only [Nat.sub_self, List.replicate_zero, List.append_nil] at ey ez
  refine ⟨x, _, y, z, e, e2, e3, ?_, by rw [ey, ez], ey⟩
  rw [rep_isSmall y _ hy]
  simp [hlen]

/-- Witness of C6 on the 20 bytes of the specification's scenario. -/
theorem C6_shrink_to_inline_witness :
    (16 ≤ [1, 2, 3, 4, 5, 6, 7, 8, 9, 10, 11, 12, 13, 14, 15, 16, 17, 18, 19, 20].length ∧
      [1, 2, 3, 4, 5, 6, 7, 8, 9, 10, 11, 12, 13, 14, 15, 16, 17, 18, 19, 20].length + 2
        ≤ 2 ^ 63) ∧
    ∃ x rs y z,
      MicroString.ofBytes [1, 2, 3, 4, 5, 6, 7, 8, 9, 10, 11, 12, 13, 14, 15, 16, 17, 18, 19, 20]
        = .ok x ∧
      x.popN ([1, 2, 3, 4, 5, 6, 7, 8, 9, 10, 11, 12, 13, 14, 15, 16, 17, 18, 19, 20].length
        - 15) = .ok (rs, y) ∧
      MicroString.ofBytes
        ([1, 2, 3, 4, 5, 6, 7, 8, 9, 10, 11, 12, 13, 14, 15, 16, 17, 18, 19, 20].take 15)
        = .ok z ∧
      y.isSmall = true ∧ y.MS = z.MS ∧
      y.MS = .S ⟨([1, 2, 3, 4, 5, 6, 7, 8, 9, 10, 11, 12, 13, 14, 15, 16, 17, 18, 19,
        20].take 15).map some, 0, 0⟩ :=
  ⟨⟨by decide, by decide⟩,
    C6_shrink_to_inline [1, 2, 3, 4, 5, 6, 7, 8, 9, 10, 11, 12, 13, 14, 15, 16, 17, 18, 19, 20]
      (by decide) (by decide)⟩

/-- C8 (null-terminated view). For every byte sequence `b` of representable length `n`,
the bytes behind `getPtr()` of the value built by appending `b` are `b[0], ..., b[n-1]`
followed by a 0 at index `n`. For `n < 15` that 0 is the zeroed inline byte `n`; for
`n = 15` it is the status byte behind the 15 inline bytes (remaining counter 0,
discriminant 0); for `n ≥ 16` it is the terminator in the heap buffer. -/
theorem C8_null_terminated_view (b : List Nat) (hb : b.length + 2 ≤ 2 ^ 63) :
    ∃ x v, MicroString.ofBytes b = .ok x ∧ x.getPtr = .ok v ∧
      (∀ i (hi : i < b.length), v[i]? = some (some b[i])) ∧
      v[b.length]? = some (some 0) ∧
      (b.length < 15 → ∃ s, x.MS = .S s ∧ s.characters[b.length]? = some (some 0)) ∧
      (b.length = 15 → ∃ s, x.MS = .S s ∧ s.characters.length = 15 ∧ s.size = 0 ∧
        s.flag = 0 ∧ v = s.characters ++ [some 0]) ∧
      (16 ≤ b.length → ∃ l, x.MS = .L l ∧ v = l.ptr) := by
  obtain ⟨x, e, hx⟩ := ofBytes_built b hb
  obtain ⟨v, ev, hv⟩ := rep_getPtr x b hx.1
  refine ⟨x, v, e, ev, ?_, ?_, ?_, ?_, ?_⟩
  · intro i hi
    rw [hv i (by omega), List.getElem?_append_left hi, List.getElem?_eq_getElem hi]
  · rw [hv b.length (le_refl _), List.getElem?_append_right (le_refl _)]
    simp
  · intro hlt
    have es := rep_small_eq x.MS b hx.1 (by omega)
    refine ⟨_, es, ?_⟩
    simp only [List.getElem?_map]
    rw [List.getElem?_append_right (le_refl _)]
    have : 0 < 15 - b.length := by omega
    simp [List.getElem?_replicate, this]
  · intro h15
    have es := rep_small_eq x.MS b hx.1 (by omega)
    refine ⟨_, es, by simp; omega, by simp [h15], rfl, ?_⟩
    unfold MicroString.getPtr at ev
    rw [rep_isSmall x b hx.1, es] at ev
    simp only [h15, le_refl, decide_True, if_true] at ev
    cases ev
    simp [h15]
  · intro h16
    unfold MicroString.getPtr at ev
    rw [rep_isSmall x b hx.1] at ev
    have : ¬ b.length ≤ 15 := by omega
    simp only [this, decide_False] at ev
    rw [if_neg (by simp)] at ev
    cases hm : x.MS with
    | S s =>
      rw [hm] at ev
      cases ev
    | L l =>
      rw [hm] at ev
      cases ev
      exact ⟨l, rfl, rfl⟩

/-- Witness of C8 on the five bytes of "hello". -/
theorem C8_null_terminated_view_witness :
    ([104, 101, 108, 108, 111].length + 2 ≤ 2 ^ 63) ∧
    ∃ x v, MicroString.ofBytes [104, 101, 108, 108, 111] = .ok x ∧ x.getPtr = .ok v ∧
      (∀ i (hi : i < [104, 101, 108, 108, 111].length),
        v[i]? = some (some [104, 101, 108, 108, 111][i])) ∧
      v[[104, 101, 108, 108, 111].length]? = some (some 0) ∧
      ([104, 101, 108, 108, 111].length < 15 →
        ∃ s, x.MS = .S s ∧ s.characters[[104, 101, 108, 108, 111].length]? = some (some 0)) ∧
      ([104, 101, 108, 108, 111].length = 15 →
        ∃ s, x.MS = .S s ∧ s.characters.length = 15 ∧ s.size = 0 ∧ s.flag = 0 ∧
          v = s.characters ++ [some 0]) ∧
      (16 ≤ [104, 101, 108, 108, 111].length → ∃ l, x.MS = .L l ∧ v = l.ptr) :=
  ⟨by decide, C8_null_terminated_view [104, 101, 108, 108, 111] (by decide)⟩

/-! ## Copy construction -/

/-- The loop of the copy constructor over a represented source is the run of `push`
calls on the source's bytes. -/
theorem copy_loop (v : MicroString) (bs : List Nat) (h : Rep v.MS bs) (k : Nat)
    (hk : k ≤ bs.length) (s0 : MicroString) :
    forLoop (fun i x => (v.at i).bind (fun c => x.push c)) k s0 = s0.pushAll (bs.take k) := by
  induction k with
  | zero => rfl
  | succ k ih =>
    have hlt : k < bs.length := by omega
    rw [forLoop, ih (by omega), List.take_succ, List.getElem?_eq_getElem hlt,
      pushAll_append]
    cases s0.pushAll (List.take k bs) with
    | error e => rfl
    | ok y =>
      simp only [Except.bind, rep_at v bs h k hlt, Option.toList, MicroString.pushAll]
      cases y.push bs[k] <;> rfl

/-- Copying an inline value gives the very same 16 bytes. -/
theorem copy_small (v : MicroString) (bs : List Nat) (h : Rep v.MS bs)
    (hl : bs.length ≤ 15) : v.copy = .ok v := by
  have es := rep_small_eq v.MS bs h hl
  unfold MicroString.copy
  rw [rep_isSmall v bs h, es]
  simp only [hl, decide_True, if_true, SMALL_CHARACTER_SIZE]
  rw [copyCells_ok _ _ _ (by simp; omega) (by simp [newArray])]
  have : List.take 15 (List.map some (bs ++ List.replicate (15 - bs.length) 0)) ++
      List.drop 15 (newArray 15) = List.map some (bs ++ List.replicate (15 - bs.length) 0) := by
    rw [List.take_of_length_le (by simp; omega), List.drop_of_length_le (by simp [newArray])]
    simp
  simp only [bind, Except.bind, pure, Except.pure, this]
  obtain ⟨m, hp⟩ := v
  simp only at es
  rw [es]

/-- Copying a heap value is the run of `push` calls on its bytes from a fresh object. -/
theorem copy_large (v : MicroString) (bs : List Nat) (h : Rep v.MS bs)
    (hl : 16 ≤ bs.length) : v.copy = (MicroString.create v.heap).pushAll bs := by
  unfold MicroString.copy
  rw [rep_isSmall v bs h]
  have : ¬ bs.length ≤ 15 := by omega
  simp only [this, decide_False]
  rw [if_neg (by simp), rep_getSize v bs h, copy_loop v bs h bs.length (le_refl _),
    List.take_length]

theorem rep_bound (m : _MicroString) (bs : List Nat) (h : Rep m bs) :
    bs.length + 2 ≤ 2 ^ 63 := by
  cases m with
  | S s =>
    have := h.2.1
    omega
  | L l => exact h.2.1

/-- C9 (copy construction). For every reachable value `v` the copy constructor returns a
value `w` of the same representation kind, the same `length()` and the same `byteAt(i)`
for every `i < length()`. When `v` is inline the 16 bytes of `w` are those of `v`; when
`v` is heap, `w` is the result of appending the bytes of `v`, in order, to a fresh empty
value. -/
theorem C9_copy_construction (v : MicroString) (hv : Reachable v) :
    ∃ w, v.copy = .ok w ∧ w.isSmall = v.isSmall ∧ w.getSize = v.getSize ∧
      (∀ i, i < v.getSize → ∃ c, v.at i = .ok c ∧ w.at i = .ok c) ∧
      (v.isSmall = true → w.MS = v.MS) ∧
      (v.isSmall = false → ∃ bs : List Nat, bs.length = v.getSize ∧
        (∀ i (hi : i < bs.length), v.at i = .ok bs[i]) ∧
        v.copy = (MicroString.create v.heap).pushAll bs) := by
  obtain ⟨bs, hr⟩ := reachable_rep v hv
  have hsz := rep_getSize v bs hr
  by_cases hl : bs.length ≤ 15
  · refine ⟨v, copy_small v bs hr hl, rfl, rfl, ?_, fun _ => rfl, ?_⟩
    · intro i hi
      rw [hsz] at hi
      exact ⟨bs[i], rep_at v bs hr i hi, rep_at v bs hr i hi⟩
    · intro hsm
      rw [rep_isSmall v bs hr] at hsm
      simp [hl] at hsm
  · have e := copy_large v bs hr (by omega)
    obtain ⟨w, ew, hw⟩ := pushAll_built bs (MicroString.create v.heap) [] (built_empty _)
      (by
        have := rep_bound v.MS bs hr
        simpa using this)
    rw [List.nil_append] at hw
    refine ⟨w, by rw [e, ew], ?_, ?_, ?_, ?_, ?_⟩
    · rw [rep_isSmall w bs hw.1, rep_isSmall v bs hr]
    · rw [rep_getSize w bs hw.1, hsz]
    · intro i hi
      rw [hsz] at hi
      exact ⟨bs[i], rep_at v bs hr i hi, rep_at w bs hw.1 i hi⟩
    · intro hsm
      rw [rep_isSmall v bs hr] at hsm
      simp [hl] at hsm
    · intro _
      exact ⟨bs, hsz.symm, fun i hi => rep_at v bs hr i hi, e⟩

theorem reachable_pushAll (cs : List Nat) (x y : MicroString) (hx : Reachable x)
    (h : x.pushAll cs = .ok y) : Reachable y := by
  induction cs generalizing x with
  | nil =>
    cases h
    exact hx
  | cons c cs ih =>
    rw [MicroString.pushAll] at h
    cases hp : x.push c with
    | error e =>
      rw [hp] at h
      cases h
    | ok z =>
      rw [hp] at h
      exact ih z (Reachable.push c x z hx hp) h

/-- Witness of C9: the heap value built from the bytes 1..16. -/
theorem C9_copy_construction_witness :
    ∃ v, MicroString.ofBytes [1, 2, 3, 4, 5, 6, 7, 8, 9, 10, 11, 12, 13, 14, 15, 16] = .ok v ∧
      v.isSmall = false ∧ Reachable v ∧
      ∃ w, v.copy = .ok w ∧ w.isSmall = v.isSmall ∧ w.getSize = v.getSize ∧
        (∀ i, i < v.getSize → ∃ c, v.at i = .ok c ∧ w.at i = .ok c) ∧
        (v.isSmall = true → w.MS = v.MS) ∧
        (v.isSmall = false → ∃ bs : List Nat, bs.length = v.getSize ∧
          (∀ i (hi : i < bs.length), v.at i = .ok bs[i]) ∧
          v.copy = (MicroString.create v.heap).pushAll bs) :=
  have hr : Reachable ⟨.L ⟨[some 1, some 2, some 3, some 4, some 5, some 6, some 7, some 8,
      some 9, some 10, some 11, some 12, some 13, some 14, some 15, some 16, some 0, none,
      none, none, none, none, none, none, none, none, none, none, none, none, none, none],
      2 ^ 63 + 16⟩, ⟨1, 0⟩⟩ :=
    reachable_pushAll [1, 2, 3, 4, 5, 6, 7, 8, 9, 10, 11, 12, 13, 14, 15, 16]
      MicroString.empty _ Reachable.empty rfl
  ⟨_, rfl, rfl, hr, C9_copy_construction _ hr⟩

/-- C2 (stack refinement) at its failing input. After 33 appends (bytes 0..32) and one
`removeLast()` the value has length 32 in a buffer of 33 bytes; the next append writes its
terminator at index 33 and faults, where a list of bytes accepts the append. -/
theorem C2_append_after_shrink_faults :
    ((MicroString.ofBytes (List.range 33)).bind (fun v => v.pop)).map
        (fun r => (r.1, r.2.getSize, r.2.bufferSize)) = .ok (32, 32, some 33) ∧
      (MicroString.ofBytes (List.range 33)).bind
        (fun v => v.pop.bind (fun r => r.2.push 120)) = .error .outOfBounds :=
  ⟨rfl, rfl⟩

/-- C3 (append/remove inverse) at its failing inputs. On the value built from 17 bytes
and on the value built from 33 bytes, `removeLast()` followed by `append` of the byte it
returned faults instead of restoring the value. -/
theorem C3_pop_then_push_faults :
    (MicroString.ofBytes (List.range 17)).bind
        (fun v => v.pop.bind (fun r => r.2.push r.1)) = .error .outOfBounds ∧
      (MicroString.ofBytes (List.range 33)).bind
        (fun v => v.pop.bind (fun r => r.2.push r.1)) = .error .outOfBounds :=
  ⟨rfl, rfl⟩

/-- C7 (heap terminator invariant) at its failing input. After 17 appends and one
`removeLast()` the heap buffer has 17 bytes at length 16, so the terminator write of the
next append, at index 17, is outside the buffer. -/
theorem C7_terminator_write_outside_buffer :
    ((MicroString.ofBytes (List.range 17)).bind (fun v => v.pop)).map
        (fun r => (r.2.isSmall, r.2.getSize, r.2.bufferSize)) = .ok (false, 16, some 17) ∧
      (MicroString.ofBytes (List.range 17)).bind
        (fun v => v.pop.bind (fun r => r.2.push 65)) = .error .outOfBounds :=
  ⟨rfl, rfl⟩

/-- C10 (resource lifecycle) at its failing input. After 16 appends and one
`removeLast()` the value is inline while one buffer is allocated and not released, and
destroying the value releases nothing. -/
theorem C10_demotion_keeps_buffer_allocated :
    (MicroString.ofBytes (List.range 16)).bind
        (fun v => v.pop.bind (fun r => r.2.destroy.map
          (fun h => (r.2.isSmall, r.2.heap.live, h.live)))) = .ok (true, 1, 1) :=
  rfl

/-- What does hold of the terminator: in every reachable heap state the buffer has more
than `length()` bytes and the byte at index `length()` is 0. -/
theorem reachable_heap_terminator (x : MicroString) (l : Large) (hx : Reachable x)
    (hm : x.MS = .L l) : x.getSize + 1 ≤ l.ptr.length ∧ l.ptr[x.getSize]? = some (some 0) := by
  obtain ⟨bs, hr⟩ := reachable_rep x hx
  rw [rep_getSize x bs hr]
  rw [hm] at hr
  obtain ⟨-, -, -, hcap, hc⟩ := hr
  refine ⟨by omega, ?_⟩
  rw [hc bs.length (le_refl _), List.getElem?_append_right (le_refl _)]
  simp

/-- The length bound of the build lemmas is the exact domain of the code: a run of
`push` calls over more than `2 ^ 63 - 2` bytes does not return, because the growth step
at length `2 ^ 63 - 2` asks `new[]` for `2 ^ 64 mod 2 ^ 64 = 0` bytes. -/
theorem ofBytes_length_limit (b : List Nat) (hb : 2 ^ 63 < b.length + 2) (x : MicroString) :
    MicroString.ofBytes b ≠ .ok x := by
  intro h
  have hlen : (b.take (2 ^ 63 - 2)).length = 2 ^ 63 - 2 := by
    rw [List.length_take]
    omega
  obtain ⟨y, e, hy⟩ := ofBytes_built (b.take (2 ^ 63 - 2)) (by omega)
  have hsplit := pushAll_append (b.take (2 ^ 63 - 2)) (b.drop (2 ^ 63 - 2)) MicroString.empty
  rw [List.take_append_drop] at hsplit
  unfold MicroString.ofBytes at h e
  rw [hsplit, e] at h
  cases hd : b.drop (2 ^ 63 - 2) with
  | nil =>
    have := congrArg List.length hd
    rw [List.length_drop] at this
    simp only [List.length_nil] at this
    omega
  | cons c cs =>
    rw [hd] at h
    simp only [Except.bind, MicroString.pushAll] at h
    cases hp : y.push c with
    | error e2 =>
      rw [hp] at h
      cases h
    | ok z =>
      cases hm : y.MS with
      | S s =>
        have := hy.1
        rw [hm] at this
        have := this.2.1
        omega
      | L l =>
        exact (push_large_grow y l _ c hm hy.1 (by omega) ⟨63, by omega⟩).2 (by omega) z hp

/-! ## Allocation behaviour of `push` and `pop` -/

theorem heap_alloc_ne (h : Heap) : h.alloc.free ≠ h := by
  intro e
  have := congrArg Heap.allocated e
  simp [Heap.alloc, Heap.free] at this

theorem two_pow_add_two_ne (j k : Nat) (hj : 2 ≤ j) : 2 ^ j + 2 ≠ 2 ^ k := by
  intro e
  obtain ⟨j2, rfl⟩ : ∃ j2, j = j2 + 2 := ⟨j - 2, by omega⟩
  rw [Nat.pow_add] at e
  have h4 : (2 : Nat) ^ 2 = 4 := by norm_num
  rw [h4] at e
  rcases Nat.lt_or_ge k 2 with hk | hk
  · have hk2 : 2 ^ k ≤ 2 ^ 1 := Nat.pow_le_pow_right (by norm_num) (by omega)
    have hpos : 0 < 2 ^ j2 := Nat.two_pow_pos j2
    omega
  · obtain ⟨k2, rfl⟩ : ∃ k2, k = k2 + 2 := ⟨k - 2, by omega⟩
    rw [Nat.pow_add, h4] at e
    omega

/-- A power of two that is at least 16 is `2 ^ j` with `4 ≤ j`. -/
theorem two_pow_exp_ge (n j m : Nat) (h : n = 2 ^ j) (hm : 2 ^ m ≤ n) : m ≤ j := by
  by_contra hc
  have : 2 ^ j < 2 ^ m := Nat.pow_lt_pow_right (by norm_num) (by omega)
  omega

/-- The allocator effect of a `push` that returns: one `new[]` on promotion, one `new[]`
and one `delete[]` on growth, nothing otherwise. -/
theorem push_heap (x y : MicroString) (bs : List Nat) (c : Nat) (h : Rep x.MS bs)
    (hy : x.push c = .ok y) :
    (bs.length = 15 → y.heap = x.heap.alloc ∧ y.bufferSize = some 32) ∧
    ((30 ≤ bs.length ∧ ∃ k, bs.length + 2 = 2 ^ k) →
      y.heap = x.heap.alloc.free ∧ y.bufferSize = some (2 * (bs.length + 2))) ∧
    (bs.length ≠ 15 → ¬ (30 ≤ bs.length ∧ ∃ k, bs.length + 2 = 2 ^ k) →
      y.heap = x.heap ∧ y.bufferSize = x.bufferSize) := by
  cases hm : x.MS with
  | S s =>
    have hl : bs.length ≤ 15 := by
      rw [hm] at h
      exact h.2.1
    by_cases hn : bs.length < 15
    · obtain ⟨y2, e, r, hh, hf⟩ := push_small x s bs c hm h hn
      rw [e] at hy
      cases hy
      refine ⟨fun e15 => by omega, fun hg => by omega, fun _ _ => ⟨hh, ?_⟩⟩
      unfold MicroString.bufferSize
      rw [hm]
      cases hy2 : y.MS with
      | S s2 => rfl
      | L l2 =>
        exfalso
        rw [hy2] at r
        have := r.1
        simp only [List.length_append, List.length_singleton] at this
        omega
    · obtain ⟨y2, l2, e, hy2, hlen, r, hh⟩ := push_promote x s bs c hm h (by omega)
      rw [e] at hy
      cases hy
      refine ⟨fun _ => ⟨hh, ?_⟩, fun hg => by omega, fun hne => absurd (by omega) hne⟩
      unfold MicroString.bufferSize
      rw [hy2]
      simp only [hlen]
  | L l =>
    have hb : 16 ≤ bs.length := by
      rw [hm] at h
      exact h.1
    by_cases hg : bs.length + 2 < 32 ∨ ¬ ∃ k, bs.length + 2 = 2 ^ k
    · have hp := push_large_inplace x l bs c hm h hg
      have hng : ¬ (30 ≤ bs.length ∧ ∃ k, bs.length + 2 = 2 ^ k) := by
        rintro ⟨h30, hk⟩
        rcases hg with hg | hg
        · omega
        · exact hg hk
      by_cases hroom : bs.length + 2 ≤ l.ptr.length
      · obtain ⟨y2, l2, e, hy2, hlen, r, hh⟩ := hp.1 hroom
        rw [e] at hy
        cases hy
        refine ⟨fun e15 => by omega, fun hg2 => absurd hg2 hng, fun _ _ => ⟨hh, ?_⟩⟩
        unfold MicroString.bufferSize
        rw [hm, hy2]
        simp only [hlen]
      · rw [hp.2 (by omega)] at hy
        cases hy
    · have h32 : 32 ≤ bs.length + 2 := by
        by_contra hc
        exact hg (Or.inl (by omega))
      have hk : ∃ k, bs.length + 2 = 2 ^ k := by
        by_contra hc
        exact hg (Or.inr hc)
      have hp := push_large_grow x l bs c hm h h32 hk
      have hmax : bs.length + 2 ≤ 2 ^ 63 := by
        rw [hm] at h
        exact h.2.1
      by_cases hroom : bs.length + 3 ≤ 2 ^ 63
      · obtain ⟨y2, l2, e, hy2, hlen, r, hh⟩ := hp.1 hroom
        rw [e] at hy
        cases hy
        refine ⟨fun e15 => by omega, fun _ => ⟨hh, ?_⟩,
          fun _ hng => absurd ⟨by omega, hk⟩ hng⟩
        unfold MicroString.bufferSize
        rw [hy2]
        simp only [hlen]
      · exact absurd hy (hp.2 (by omega) y)

/-- The allocator effect of `pop`: one `new[]` and one `delete[]` when the new length is a
power of two from 16 on (shrink), nothing otherwise (demotion included). -/
theorem pop_heap (x : MicroString) (bs : List Nat) (c : Nat) (h : Rep x.MS (bs ++ [c])) :
    ∃ y, x.pop = .ok (c, y) ∧ Rep y.MS bs ∧
      ((16 ≤ bs.length ∧ ∃ k, bs.length = 2 ^ k) →
        y.heap = x.heap.alloc.free ∧ y.bufferSize = some (bs.length + 1)) ∧
      (¬ (16 ≤ bs.length ∧ ∃ k, bs.length = 2 ^ k) →
        y.heap = x.heap ∧ (y.bufferSize = x.bufferSize ∨ y.bufferSize = none)) := by
  cases hm : x.MS with
  | S s =>
    obtain ⟨y, e, r, hh⟩ := pop_small x s bs c hm h
    have hl : bs.length + 1 ≤ 15 := by
      rw [hm] at h
      have := h.2.1
      simpa using this
    refine ⟨y, e, r, fun hs => by omega, fun _ => ⟨hh, Or.inr ?_⟩⟩
    unfold MicroString.bufferSize
    cases hy : y.MS with
    | S s2 => rfl
    | L l2 =>
      exfalso
      rw [hy] at r
      have := r.1
      omega
  | L l =>
    have hb : 15 ≤ bs.length := by
      rw [hm] at h
      have := h.1
      simp only [List.length_append, List.length_singleton] at this
      omega
    by_cases hn : bs.length = 15
    · obtain ⟨y, e, r, hy, hh⟩ := pop_demote x l bs c hm h hn
      refine ⟨y, e, r, fun hs => by omega, fun _ => ⟨hh, Or.inr ?_⟩⟩
      unfold MicroString.bufferSize
      rw [hy]
    · by_cases hk : ∃ k, bs.length = 2 ^ k
      · obtain ⟨y, l2, e, r, hy, hlen, hh⟩ := pop_shrink x l bs c hm h hn hk
        refine ⟨y, e, r, fun _ => ⟨hh, ?_⟩, fun hns => absurd ⟨by omega, hk⟩ hns⟩
        unfold MicroString.bufferSize
        rw [hy]
        simp only [hlen]
      · obtain ⟨y, l2, e, r, hy, hlen, hh⟩ := pop_inplace x l bs c hm h hn hk
        refine ⟨y, e, r, fun hs => absurd hs.2 hk, fun _ => ⟨hh, Or.inl ?_⟩⟩
        unfold MicroString.bufferSize
        rw [hy, hm]
        simp only [hlen]

/-- A `pop` that returns on a reachable state leads to a reachable state. -/
theorem reachable_pop_ok (x y : MicroString) (c : Nat) (hx : Reachable x)
    (h : x.pop = .ok (c, y)) : Reachable y := by
  obtain ⟨bs, hr⟩ := reachable_rep x hx
  refine Reachable.pop c x y hx ?_ h
  rw [rep_getSize x bs hr]
  cases bs with
  | nil =>
    rw [pop_empty x hr] at h
    cases h
  | cons b bs => simp

/-- On runs without a shrink step the heap buffer is a power of two from 32 on with room
for the next byte and its terminator. -/
theorem noShrink_capacity (x : MicroString) (hx : ReachableNoShrink x) :
    ∃ bs, Rep x.MS bs ∧
      ∀ n, x.bufferSize = some n → ∃ k, 5 ≤ k ∧ n = 2 ^ k ∧ bs.length + 2 ≤ 2 ^ k := by
  induction hx with
  | empty =>
    refine ⟨[], (built_empty _).1, ?_⟩
    intro n hn
    cases hn
  | push c x y _ hp ih =>
    obtain ⟨bs, hr, hcap⟩ := ih
    refine ⟨bs ++ [c], push_rep x y bs c hr hp, ?_⟩
    obtain ⟨h15, hgrow, hin⟩ := push_heap x y bs c hr hp
    intro n hn
    simp only [List.length_append, List.length_singleton]
    by_cases e15 : bs.length = 15
    · rw [(h15 e15).2] at hn
      cases hn
      exact ⟨5, le_refl _, by norm_num, by omega⟩
    · by_cases hg : 30 ≤ bs.length ∧ ∃ k, bs.length + 2 = 2 ^ k
      · rw [(hgrow hg).2] at hn
        cases hn
        obtain ⟨h30, j, hj⟩ := hg
        have hj5 : 5 ≤ j := two_pow_exp_ge _ j 5 hj (by omega)
        exact ⟨j + 1, by omega, by rw [hj, Nat.pow_succ]; omega, by rw [Nat.pow_succ]; omega⟩
      · rw [(hin e15 hg).2] at hn
        obtain ⟨k, hk5, hk, hle⟩ := hcap n hn
        have h32 := two_pow_ge_32 k hk5
        refine ⟨k, hk5, hk, ?_⟩
        by_contra hc
        have e : bs.length + 2 = 2 ^ k := by omega
        exact hg ⟨by omega, k, e⟩
  | pop c x y _ hs hp hh ih =>
    obtain ⟨bs, hr, hcap⟩ := ih
    obtain ⟨bs2, c2, e⟩ := rep_nil_of_size x bs hr hs
    subst e
    obtain ⟨y2, e2, r2, hshrink, hkeep⟩ := pop_heap x bs2 c2 hr
    rw [e2] at hp
    cases hp
    refine ⟨bs2, r2, ?_⟩
    by_cases hsh : 16 ≤ bs2.length ∧ ∃ k, bs2.length = 2 ^ k
    · exact absurd ((hshrink hsh).1.symm.trans hh) (heap_alloc_ne _)
    · intro n hn
      rcases (hkeep hsh).2 with hb | hb
      · rw [hb] at hn
        obtain ⟨k, hk5, hk, hle⟩ := hcap n hn
        simp only [List.length_append, List.length_singleton] at hle
        exact ⟨k, hk5, hk, by omega⟩
      · rw [hb] at hn
        cases hn

/-! ## Capacity -/

/-- The buffer size the growth policy gives at length `n`, in the words of the
specification: 32 while `n + 2 ≤ 32`, then the smallest power of two from `n + 2` on. -/
theorem grownCap_formula (n cap : Nat) (h : GrownCap n cap) :
    (n + 2 ≤ 32 → cap = 32) ∧
    (32 < n + 2 → ∃ k, cap = 2 ^ k ∧ n + 2 ≤ 2 ^ k ∧ ∀ j, n + 2 ≤ 2 ^ j → 2 ^ k ≤ 2 ^ j) ∧
    n + 2 ≤ cap := by
  obtain ⟨k, hk5, hcap, hle, hmin⟩ := h
  refine ⟨?_, ?_, by omega⟩
  · intro h32
    rcases hmin with hmin | hmin
    · rw [hcap, hmin]
      norm_num
    · by_cases hk : k = 5
      · rw [hcap, hk]
        norm_num
      · have : 2 ^ 5 ≤ 2 ^ (k - 1) := Nat.pow_le_pow_right (by norm_num) (by omega)
        omega
  · intro h32
    refine ⟨k, hcap, hle, ?_⟩
    intro j hj
    rcases hmin with hmin | hmin
    · rw [hmin] at hle
      omega
    · have hlt : 2 ^ (k - 1) < 2 ^ j := by omega
      have : k - 1 < j := (Nat.pow_lt_pow_iff_right (by norm_num)).1 hlt
      exact Nat.pow_le_pow_right (by norm_num) (by omega)

/-- The heap buffer of a value built by appends only. -/
theorem ofBytes_capacity (b : List Nat) (h16 : 16 ≤ b.length) (hb : b.length + 2 ≤ 2 ^ 63) :
    ∃ x l, MicroString.ofBytes b = .ok x ∧ Built x.MS b ∧ x.MS = .L l ∧
      GrownCap b.length l.ptr.length := by
  obtain ⟨x, e, hx⟩ := ofBytes_built b hb
  cases hm : x.MS with
  | S s =>
    have := hx.1
    rw [hm] at this
    have := this.2.1
    omega
  | L l =>
    have hc := hx.2
    rw [hm] at hc
    exact ⟨x, l, e, hx, hm, hc⟩

theorem noShrink_pushAll (cs : List Nat) (x y : MicroString) (hx : ReachableNoShrink x)
    (h : x.pushAll cs = .ok y) : ReachableNoShrink y := by
  induction cs generalizing x with
  | nil =>
    cases h
    exact hx
  | cons c cs ih =>
    rw [MicroString.pushAll] at h
    cases hp : x.push c with
    | error e =>
      rw [hp] at h
      cases h
    | ok z =>
      rw [hp] at h
      exact ih z (ReachableNoShrink.push c x z hx hp) h

/-- C11 (capacity formula), refuted as stated. The value built from the 31 bytes 0..30
and reduced by one `removeLast()` is a reachable heap state of length 30 whose buffer has
64 bytes, not the 32 of the formula; after 17 appends and one `removeLast()` the buffer
has 17 bytes, after 33 appends and one `removeLast()` it has 33 bytes. -/
theorem C11_capacity_formula_fails :
    ((MicroString.ofBytes (List.range 17)).bind (fun u => u.pop)).map
        (fun r => (r.2.getSize, r.2.bufferSize)) = .ok (16, some 17) ∧
    ((MicroString.ofBytes (List.range 33)).bind (fun u => u.pop)).map
        (fun r => (r.2.getSize, r.2.bufferSize)) = .ok (32, some 33) ∧
    ¬ (∀ x l, Reachable x → x.MS = .L l →
        (x.getSize + 2 ≤ 32 → l.ptr.length = 32) ∧
        (32 < x.getSize + 2 → ∃ k, l.ptr.length = 2 ^ k ∧ x.getSize + 2 ≤ 2 ^ k ∧
          ∀ j, x.getSize + 2 ≤ 2 ^ j → 2 ^ k ≤ 2 ^ j)) := by
  refine ⟨rfl, rfl, ?_⟩
  intro H
  have hev : ((MicroString.ofBytes (List.range 31)).bind (fun u => u.pop)).map
      (fun r => (r.2.getSize, r.2.bufferSize)) = .ok (30, some 64) := rfl
  cases hu : MicroString.ofBytes (List.range 31) with
  | error e =>
    rw [hu] at hev
    cases hev
  | ok u =>
    rw [hu] at hev
    simp only [Except.bind] at hev
    cases hp : u.pop with
    | error e =>
      rw [hp] at hev
      cases hev
    | ok r =>
      rw [hp] at hev
      simp only [Except.map, Except.ok.injEq, Prod.mk.injEq] at hev
      obtain ⟨hsz, hbuf⟩ := hev
      have hru : Reachable u := reachable_pushAll _ _ _ Reachable.empty hu
      have hrv : Reachable r.2 := reachable_pop_ok u r.2 r.1 hru hp
      unfold MicroString.bufferSize at hbuf
      cases hm : r.2.MS with
      | S s =>
        rw [hm] at hbuf
        cases hbuf
      | L l =>
        rw [hm] at hbuf
        simp only [Option.some.injEq] at hbuf
        have := (H r.2 l hrv hm).1 (by omega)
        omega

/-- C11 (capacity formula), amended. In every heap state reachable from the empty value
by `push` and by `pop` calls that do not shrink the buffer, the allocated size is a power
of two, at least 32 and at least `length() + 2`. In every heap state built by appends
only it is 32 when `length() + 2 ≤ 32` and otherwise the smallest power of two that is at
least `length() + 2`. -/
theorem C11_capacity_without_shrink :
    (∀ x l, ReachableNoShrink x → x.MS = .L l →
      ∃ k, 5 ≤ k ∧ l.ptr.length = 2 ^ k ∧ x.getSize + 2 ≤ 2 ^ k) ∧
    (∀ b : List Nat, 16 ≤ b.length → b.length + 2 ≤ 2 ^ 63 →
      ∃ x l, MicroString.ofBytes b = .ok x ∧ x.MS = .L l ∧ x.getSize = b.length ∧
        (x.getSize + 2 ≤ 32 → l.ptr.length = 32) ∧
        (32 < x.getSize + 2 → ∃ k, l.ptr.length = 2 ^ k ∧ x.getSize + 2 ≤ 2 ^ k ∧
          ∀ j, x.getSize + 2 ≤ 2 ^ j → 2 ^ k ≤ 2 ^ j)) := by
  constructor
  · intro x l hx hm
    obtain ⟨bs, hr, hcap⟩ := noShrink_capacity x hx
    rw [rep_getSize x bs hr]
    exact hcap l.ptr.length (by unfold MicroString.bufferSize; rw [hm])
  · intro b h16 hb
    obtain ⟨x, l, e, hx, hm, hc⟩ := ofBytes_capacity b h16 hb
    obtain ⟨f1, f2, -⟩ := grownCap_formula _ _ hc
    refine ⟨x, l, e, hm, rep_getSize x b hx.1, ?_, ?_⟩
    · rw [rep_getSize x b hx.1]
      exact f1
    · rw [rep_getSize x b hx.1]
      exact f2

/-- Witness of the amended C11: the value built from 31 bytes and reduced by one
`removeLast()` in place, and the value built from 40 bytes. -/
theorem C11_capacity_without_shrink_witness :
    (∃ u v l, MicroString.ofBytes (List.range 31) = .ok u ∧ u.pop = .ok (30, v) ∧
      ReachableNoShrink v ∧ v.MS = .L l ∧
      ∃ k, 5 ≤ k ∧ l.ptr.length = 2 ^ k ∧ v.getSize + 2 ≤ 2 ^ k) ∧
    ((16 ≤ (List.range 40).length ∧ (List.range 40).length + 2 ≤ 2 ^ 63) ∧
      ∃ x l, MicroString.ofBytes (List.range 40) = .ok x ∧ x.MS = .L l ∧
        x.getSize = (List.range 40).length ∧
        (x.getSize + 2 ≤ 32 → l.ptr.length = 32) ∧
        (32 < x.getSize + 2 → ∃ k, l.ptr.length = 2 ^ k ∧ x.getSize + 2 ≤ 2 ^ k ∧
          ∀ j, x.getSize + 2 ≤ 2 ^ j → 2 ^ k ≤ 2 ^ j)) := by
  constructor
  · cases hu : MicroString.ofBytes (List.range 31) with
    | error e =>
      have hev : (MicroString.ofBytes (List.range 31)).toBool = true := rfl
      rw [hu] at hev
      cases hev
    | ok u =>
      have hev : ((MicroString.ofBytes (List.range 31)).bind (fun u => u.pop)).map
          (fun r => (r.1, r.2.heap, r.2.isSmall)) = .ok (30, ⟨2, 1⟩, false) := rfl
      have hu2 : ((MicroString.ofBytes (List.range 31)).map (fun u => (u.getSize, u.heap)))
          = .ok (31, ⟨2, 1⟩) := rfl
      rw [hu] at hev hu2
      simp only [Except.bind] at hev
      simp only [Except.map, Except.ok.injEq, Prod.mk.injEq] at hu2
      cases hp : u.pop with
      | error e =>
        rw [hp] at hev
        cases hev
      | ok r =>
        rw [hp] at hev
        simp only [Except.map, Except.ok.injEq, Prod.mk.injEq] at hev
        obtain ⟨h1, h2, h3⟩ := hev
        obtain ⟨c, v⟩ := r
        simp only at h1 h2 h3
        subst h1
        have hru : ReachableNoShrink u := noShrink_pushAll _ _ _ ReachableNoShrink.empty hu
        have hrv : ReachableNoShrink v :=
          ReachableNoShrink.pop 30 u v hru (by rw [hu2.1]; decide) hp (by rw [h2, hu2.2])
        cases hm : v.MS with
        | S s =>
          simp [MicroString.isSmall, hm, _MicroString.flag] at h3
          exfalso
          obtain ⟨bs, hr, -⟩ := noShrink_capacity v hrv
          rw [hm] at hr
          exact h3 hr.1
        | L l =>
          exact ⟨u, v, l, rfl, hp, hrv, hm, C11_capacity_without_shrink.1 v l hrv hm⟩
  · exact ⟨⟨by decide, by decide⟩,
      C11_capacity_without_shrink.2 (List.range 40) (by decide) (by decide)⟩

/-- C16 (append-only capacity and bounds). For every value built from the empty value by
appends only, of representable length `L ≥ 16`: the allocated buffer has 32 bytes if
`L ≤ 30` and otherwise the smallest power of two that is at least `L + 2` bytes; so it
always has at least `L + 2` bytes, and the next append (while `L + 1` is representable)
returns without a fault, every write of it inside a buffer, and stores its byte at
index `L`. -/
theorem C16_append_only_capacity (b : List Nat) (h16 : 16 ≤ b.length)
    (hb : b.length + 2 ≤ 2 ^ 63) :
    ∃ x l, MicroString.ofBytes b = .ok x ∧ x.MS = .L l ∧ x.getSize = b.length ∧
      (b.length ≤ 30 → l.ptr.length = 32) ∧
      (30 < b.length → ∃ k, l.ptr.length = 2 ^ k ∧ b.length + 2 ≤ 2 ^ k ∧
        ∀ j, b.length + 2 ≤ 2 ^ j → 2 ^ k ≤ 2 ^ j) ∧
      b.length + 2 ≤ l.ptr.length ∧
      (∀ c, b.length + 3 ≤ 2 ^ 63 →
        ∃ y, x.push c = .ok y ∧ y.getSize = b.length + 1 ∧ y.at b.length = .ok c) := by
  obtain ⟨x, l, e, hx, hm, hc⟩ := ofBytes_capacity b h16 hb
  obtain ⟨f1, f2, f3⟩ := grownCap_formula _ _ hc
  refine ⟨x, l, e, hm, rep_getSize x b hx.1, fun h => f1 (by omega), fun h => f2 (by omega),
    f3, ?_⟩
  intro c hc3
  obtain ⟨y, ey, hy⟩ := push_built x b c hx hc3
  refine ⟨y, ey, ?_, ?_⟩
  · rw [rep_getSize y _ hy.1]
    simp
  · rw [rep_at y _ hy.1 b.length (by simp)]
    simp

/-- Witness of C16 on the 31 bytes 0..30, the first length behind the 32-byte buffer. -/
theorem C16_append_only_capacity_witness :
    (16 ≤ (List.range 31).length ∧ (List.range 31).length + 2 ≤ 2 ^ 63) ∧
    ∃ x l, MicroString.ofBytes (List.range 31) = .ok x ∧ x.MS = .L l ∧
      x.getSize = (List.range 31).length ∧
      ((List.range 31).length ≤ 30 → l.ptr.length = 32) ∧
      (30 < (List.range 31).length → ∃ k, l.ptr.length = 2 ^ k ∧
        (List.range 31).length + 2 ≤ 2 ^ k ∧
        ∀ j, (List.range 31).length + 2 ≤ 2 ^ j → 2 ^ k ≤ 2 ^ j) ∧
      (List.range 31).length + 2 ≤ l.ptr.length ∧
      (∀ c, (List.range 31).length + 3 ≤ 2 ^ 63 →
        ∃ y, x.push c = .ok y ∧ y.getSize = (List.range 31).length + 1 ∧
          y.at (List.range 31).length = .ok c) :=
  ⟨⟨by decide, by decide⟩, C16_append_only_capacity (List.range 31) (by decide) (by decide)⟩

/-! ## Inline padding -/

/-- Copy construction keeps the stored bytes. -/
theorem copy_rep (x y : MicroString) (bs : List Nat) (h : Rep x.MS bs)
    (hy : x.copy = .ok y) : Rep y.MS bs := by
  by_cases hl : bs.length ≤ 15
  · rw [copy_small x bs h hl] at hy
    cases hy
    exact h
  · rw [copy_large x bs h (by omega)] at hy
    obtain ⟨w, ew, hw⟩ := pushAll_built bs (MicroString.create x.heap) [] (built_empty _)
      (by
        have := rep_bound x.MS bs h
        simpa using this)
    rw [ew] at hy
    cases hy
    simpa using hw.1

/-- Every state reachable with copy construction stores some byte list. -/
theorem reachableWithCopy_rep (x : MicroString) (h : ReachableWithCopy x) :
    ∃ bs, Rep x.MS bs := by
  induction h with
  | empty => exact ⟨[], (built_empty _).1⟩
  | push c x y _ hp ih =>
    obtain ⟨bs, hr⟩ := ih
    exact ⟨bs ++ [c], push_rep x y bs c hr hp⟩
  | pop c x y _ hs hp ih =>
    obtain ⟨bs, hr⟩ := ih
    obtain ⟨bs2, c2, e⟩ := rep_nil_of_size x bs hr hs
    subst e
    obtain ⟨y2, e2, r2⟩ := pop_rep x bs2 c2 hr
    rw [e2] at hp
    cases hp
    exact ⟨bs2, r2⟩
  | copy x y _ hc ih =>
    obtain ⟨bs, hr⟩ := ih
    exact ⟨bs, copy_rep x y bs hr hc⟩

/-- C12 (inline padding invariant). In every inline state reachable from the empty value
by `push`, `pop` (demotion from heap included) and copy construction, the 15 inline bytes
are the stored bytes followed by zeros: every inline byte at an index `i` with
`length() ≤ i < 15` is 0, and the remaining counter is `15 - length()`. -/
theorem C12_inline_padding (x : MicroString) (s : Small) (hx : ReachableWithCopy x)
    (hm : x.MS = .S s) :
    x.getSize ≤ 15 ∧ s.size = 15 - x.getSize ∧ s.characters.length = 15 ∧
      ∀ i, x.getSize ≤ i → i < 15 → s.characters[i]? = some (some 0) := by
  obtain ⟨bs, hr⟩ := reachableWithCopy_rep x hx
  rw [rep_getSize x bs hr]
  rw [hm] at hr
  obtain ⟨-, hl, hs, hc⟩ := hr
  refine ⟨hl, hs, by rw [hc]; simp; omega, ?_⟩
  intro i h1 h2
  rw [hc, List.getElem?_map, List.getElem?_append_right h1, List.getElem?_replicate]
  have : i - bs.length < 15 - bs.length := by omega
  simp [this]

theorem withCopy_pushAll (cs : List Nat) (x y : MicroString) (hx : ReachableWithCopy x)
    (h : x.pushAll cs = .ok y) : ReachableWithCopy y := by
  induction cs generalizing x with
  | nil =>
    cases h
    exact hx
  | cons c cs ih =>
    rw [MicroString.pushAll] at h
    cases hp : x.push c with
    | error e =>
      rw [hp] at h
      cases h
    | ok z =>
      rw [hp] at h
      exact ih z (ReachableWithCopy.push c x z hx hp) h

theorem withCopy_pop_ok (x y : MicroString) (c : Nat) (hx : ReachableWithCopy x)
    (h : x.pop = .ok (c, y)) : ReachableWithCopy y := by
  obtain ⟨bs, hr⟩ := reachableWithCopy_rep x hx
  refine ReachableWithCopy.pop c x y hx ?_ h
  rw [rep_getSize x bs hr]
  cases bs with
  | nil =>
    rw [pop_empty x hr] at h
    cases h
  | cons b bs => simp

/-- Witness of C12: 16 appends, two removals (the first one the demotion), then a copy:
an inline value of length 14 whose byte 14 is the padding. -/
theorem C12_inline_padding_witness :
    (ReachableWithCopy ⟨.S ⟨[some 0, some 1, some 2, some 3, some 4, some 5, some 6, some 7,
        some 8, some 9, some 10, some 11, some 12, some 13, some 0], 1, 0⟩, ⟨1, 0⟩⟩ ∧
      (⟨.S ⟨[some 0, some 1, some 2, some 3, some 4, some 5, some 6, some 7,
        some 8, some 9, some 10, some 11, some 12, some 13, some 0], 1, 0⟩, ⟨1, 0⟩⟩ :
          MicroString).MS = .S ⟨[some 0, some 1, some 2, some 3, some 4, some 5, some 6,
        some 7, some 8, some 9, some 10, some 11, some 12, some 13, some 0], 1, 0⟩) ∧
    ((⟨.S ⟨[some 0, some 1, some 2, some 3, some 4, some 5, some 6, some 7,
        some 8, some 9, some 10, some 11, some 12, some 13, some 0], 1, 0⟩, ⟨1, 0⟩⟩ :
          MicroString).getSize ≤ 15 ∧
      (1 : Nat) = 15 - (⟨.S ⟨[some 0, some 1, some 2, some 3, some 4, some 5, some 6, some 7,
        some 8, some 9, some 10, some 11, some 12, some 13, some 0], 1, 0⟩, ⟨1, 0⟩⟩ :
          MicroString).getSize ∧
      [some 0, some 1, some 2, some 3, some 4, some 5, some 6, some 7,
        some 8, some 9, some 10, some 11, some 12, some 13, some (0 : Nat)].length = 15 ∧
      ∀ i, (⟨.S ⟨[some 0, some 1, some 2, some 3, some 4, some 5, some 6, some 7,
        some 8, some 9, some 10, some 11, some 12, some 13, some 0], 1, 0⟩, ⟨1, 0⟩⟩ :
          MicroString).getSize ≤ i → i < 15 →
        [some 0, some 1, some 2, some 3, some 4, some 5, some 6, some 7,
          some 8, some 9, some 10, some 11, some 12, some 13, some (0 : Nat)][i]?
            = some (some 0)) :=
  have e1 : MicroString.pushAll (List.range 16) MicroString.empty =
      .ok ⟨.L ⟨[some 0, some 1, some 2, some 3, some 4, some 5, some 6,
        some 7, some 8, some 9, some 10, some 11, some 12, some 13, some 14, some 15,
        some 0, none, none, none, none, none, none, none, none, none, none, none, none,
        none, none, none], 2 ^ 63 + 16⟩, ⟨1, 0⟩⟩ := rfl
  have e2 : MicroString.pop ⟨.L ⟨[some 0, some 1, some 2, some 3, some 4, some 5, some 6,
        some 7, some 8, some 9, some 10, some 11, some 12, some 13, some 14, some 15,
        some 0, none, none, none, none, none, none, none, none, none, none, none, none,
        none, none, none], 2 ^ 63 + 16⟩, ⟨1, 0⟩⟩ =
      .ok (15, ⟨.S ⟨[some 0, some 1, some 2, some 3, some 4, some 5, some 6,
        some 7, some 8, some 9, some 10, some 11, some 12, some 13, some 14], 0, 0⟩,
        ⟨1, 0⟩⟩) := rfl
  have e3 : MicroString.pop ⟨.S ⟨[some 0, some 1, some 2, some 3, some 4, some 5, some 6,
        some 7, some 8, some 9, some 10, some 11, some 12, some 13, some 14], 0, 0⟩,
        ⟨1, 0⟩⟩ =
      .ok (14, ⟨.S ⟨[some 0, some 1, some 2, some 3, some 4, some 5, some 6,
        some 7, some 8, some 9, some 10, some 11, some 12, some 13, some 0], 1, 0⟩,
        ⟨1, 0⟩⟩) := rfl
  have e4 : MicroString.copy ⟨.S ⟨[some 0, some 1, some 2, some 3, some 4, some 5, some 6,
        some 7, some 8, some 9, some 10, some 11, some 12, some 13, some 0], 1, 0⟩,
        ⟨1, 0⟩⟩ =
      .ok ⟨.S ⟨[some 0, some 1, some 2, some 3, some 4, some 5, some 6,
        some 7, some 8, some 9, some 10, some 11, some 12, some 13, some 0], 1, 0⟩,
        ⟨1, 0⟩⟩ := rfl
  have hr := ReachableWithCopy.copy _ _
    (withCopy_pop_ok _ _ 14
      (withCopy_pop_ok _ _ 15
        (withCopy_pushAll (List.range 16) MicroString.empty _ ReachableWithCopy.empty e1) e2)
      e3) e4
  ⟨⟨hr, rfl⟩, C12_inline_padding _ _ hr rfl⟩

/-! ## The steps of `push` -/

/-- An inline `push` is one array write and the decrement of the remaining counter. -/
theorem push_small_eq (x : MicroString) (s : Small) (bs : List Nat) (c : Nat)
    (hx : x.MS = .S s) (h : Rep x.MS bs) (hn : bs.length < 15) :
    x.push c = (store s.characters bs.length (some c)).bind
      (fun cs => .ok ⟨.S ⟨cs, s.size - 1, s.flag⟩, x.heap⟩) := by
  have hsz := rep_getSize x bs h
  rw [hx] at h
  obtain ⟨hf, hl, hs, hc⟩ := h
  have e : (s.size + 127) % 128 = s.size - 1 := by omega
  unfold MicroString.push
  simp only [hsz, SMALL_CHARACTER_SIZE, hn, if_true, hx, e]
  rfl

/-- A heap `push` away from a growth point is two array writes and the increment of the
length field, with no allocator call. -/
theorem push_inplace_eq (x : MicroString) (l : Large) (bs : List Nat) (c : Nat)
    (hx : x.MS = .L l) (h : Rep x.MS bs)
    (hg : ¬ (30 ≤ bs.length ∧ ∃ k, bs.length + 2 = 2 ^ k)) :
    x.push c = (store l.ptr bs.length (some c)).bind (fun p =>
      (store p (bs.length + 1) (some 0)).bind (fun q =>
        .ok ⟨.L ⟨q, l.size + 1⟩, x.heap⟩)) := by
  have hsz := rep_getSize x bs h
  rw [hx] at h
  obtain ⟨h16, hmax, hs, hcap, hc⟩ := h
  have c1 : ¬ bs.length < 15 := by omega
  have c2 : ¬ bs.length = 15 := by omega
  have hno : bs.length + 3 ≤ 2 ^ 63 := by
    by_contra hcon
    exact hg ⟨by omega, 63, by omega⟩
  have a1 : add64 bs.length 1 = bs.length + 1 := add64_small _ _ (by omega)
  have a2 : add64 bs.length 2 = bs.length + 2 := add64_small _ _ (by omega)
  have a3 : add64 l.size 1 = l.size + 1 := add64_small _ _ (by omega)
  have ht := grow_test_iff bs.length hmax
  rw [a2] at ht
  unfold MicroString.push
  simp only [hsz, SMALL_CHARACTER_SIZE, c1, c2, if_false, hx, FIRST_ALLOC_SIZE, a1, a2, a3]
  by_cases h32 : bs.length + 2 < 32
  · simp only [h32, if_true]
    rfl
  · have hnt : ¬ ((bs.length + 2) &&& sub64 (bs.length + 2) 1 = 0) :=
      fun e => hg ⟨by omega, ht.1 e⟩
    simp only [h32, hnt, if_false]
    rfl

theorem rep_bufferSize_some (x : MicroString) (bs : List Nat) (h : Rep x.MS bs)
    (hl : 16 ≤ bs.length) : ∃ n, x.bufferSize = some n := by
  unfold MicroString.bufferSize
  cases hm : x.MS with
  | S s =>
    rw [hm] at h
    have := h.2.1
    omega
  | L l => exact ⟨_, rfl⟩

/-- At a growth point `push` reallocates and the `pop` that follows does not. -/
theorem grow_then_pop (x : MicroString) (bs : List Nat) (c : Nat) (h : Rep x.MS bs)
    (h30 : 30 ≤ bs.length) (hk : ∃ k, bs.length + 2 = 2 ^ k)
    (hmax : bs.length + 3 ≤ 2 ^ 63) :
    ∃ y z, x.push c = .ok y ∧ Rep y.MS (bs ++ [c]) ∧ y.heap = x.heap.alloc.free ∧
      y.bufferSize = some (2 * (bs.length + 2)) ∧
      y.pop = .ok (c, z) ∧ Rep z.MS bs ∧ z.heap = y.heap ∧ z.bufferSize = y.bufferSize := by
  cases hm : x.MS with
  | S s =>
    rw [hm] at h
    have := h.2.1
    omega
  | L l =>
    obtain ⟨y, l2, e, -, -, r, -⟩ := (push_large_grow x l bs c hm h (by omega) hk).1 hmax
    obtain ⟨-, hgrow, -⟩ := push_heap x y bs c h e
    obtain ⟨hh, hb⟩ := hgrow ⟨h30, hk⟩
    obtain ⟨z, ez, rz, -, hkeep⟩ := pop_heap y bs c r
    have hns : ¬ (16 ≤ bs.length ∧ ∃ k, bs.length = 2 ^ k) := by
      rintro ⟨-, j, hj⟩
      obtain ⟨k, hk⟩ := hk
      have hj2 : 2 ≤ j := two_pow_exp_ge _ j 2 hj (by norm_num; omega)
      rw [hj] at hk
      exact two_pow_add_two_ne j k hj2 hk
    obtain ⟨hz, hzb⟩ := hkeep hns
    refine ⟨y, z, e, r, hh, hb, ez, rz, hz, ?_⟩
    rcases hzb with hzb | hzb
    · exact hzb
    · obtain ⟨n, hn⟩ := rep_bufferSize_some z bs rz (by omega)
      rw [hn] at hzb
      cases hzb

/-- No `push` that allocates is followed by a `pop` that allocates. -/
theorem no_double_alloc (x y z : MicroString) (c d : Nat) (hx : Reachable x)
    (hp : x.push c = .ok y) (hq : y.pop = .ok (d, z))
    (h1 : y.heap.allocated = x.heap.allocated + 1)
    (h2 : z.heap.allocated = y.heap.allocated + 1) : False := by
  obtain ⟨bs, hr⟩ := reachable_rep x hx
  have ry := push_rep x y bs c hr hp
  obtain ⟨h15, hgrow, hin⟩ := push_heap x y bs c hr hp
  obtain ⟨z2, ez, rz, hshrink, hkeep⟩ := pop_heap y bs c ry
  rw [ez] at hq
  cases hq
  by_cases hsh : 16 ≤ bs.length ∧ ∃ k, bs.length = 2 ^ k
  · obtain ⟨h16, j, hj⟩ := hsh
    by_cases hg : 30 ≤ bs.length ∧ ∃ k, bs.length + 2 = 2 ^ k
    · obtain ⟨-, k, hk⟩ := hg
      have hj2 : 2 ≤ j := two_pow_exp_ge _ j 2 hj (by norm_num; omega)
      rw [hj] at hk
      exact two_pow_add_two_ne j k hj2 hk
    · have := (hin (by omega) hg).1
      rw [this] at h1
      omega
  · have := (hkeep hsh).1
    rw [this] at h2
    omega

/-- C13 (growth policy). For every reachable value of length `L` and every byte `c`:
at `L = 15` the append returns after one `new[]` of exactly 32 bytes, with length 16
(promotion); at `L ≥ 30` with `L + 2` a power of two (and `L + 1` representable) it returns
after one `new[]` of exactly `2 * (L + 2)` bytes and one `delete[]`, the `L` bytes kept
(growth); in every other case the append is exactly the write of the new byte, on the heap
the write of the terminator behind it, and the update of the length, with the allocator
untouched. So an append that returns allocated a buffer if and only if `L = 15`, or
`L ≥ 30` and `L + 2` is a power of two; and it always leaves length `L + 1`. -/
theorem C13_growth_policy (x : MicroString) (hx : Reachable x) (c : Nat) :
    (x.getSize = 15 →
      ∃ y, x.push c = .ok y ∧ y.heap = x.heap.alloc ∧ y.bufferSize = some 32 ∧
        y.getSize = 16) ∧
    (30 ≤ x.getSize → (∃ k, x.getSize + 2 = 2 ^ k) → x.getSize + 3 ≤ 2 ^ 63 →
      ∃ y, x.push c = .ok y ∧ y.heap = x.heap.alloc.free ∧
        y.bufferSize = some (2 * (x.getSize + 2)) ∧ y.getSize = x.getSize + 1 ∧
        ∀ i, i < x.getSize → y.at i = x.at i) ∧
    (x.getSize ≠ 15 → ¬ (30 ≤ x.getSize ∧ ∃ k, x.getSize + 2 = 2 ^ k) →
      (∀ s, x.MS = .S s →
        x.push c = (store s.characters x.getSize (some c)).bind
          (fun cs => .ok ⟨.S ⟨cs, s.size - 1, s.flag⟩, x.heap⟩)) ∧
      (∀ l, x.MS = .L l →
        x.push c = (store l.ptr x.getSize (some c)).bind (fun p =>
          (store p (x.getSize + 1) (some 0)).bind (fun q =>
            .ok ⟨.L ⟨q, l.size + 1⟩, x.heap⟩)))) ∧
    (∀ y, x.push c = .ok y →
      (y.heap.allocated = x.heap.allocated + 1 ↔
        (x.getSize = 15 ∨ (30 ≤ x.getSize ∧ ∃ k, x.getSize + 2 = 2 ^ k))) ∧
      (y.heap.allocated = x.heap.allocated ∨ y.heap.allocated = x.heap.allocated + 1) ∧
      y.getSize = x.getSize + 1) := by
  obtain ⟨bs, hr⟩ := reachable_rep x hx
  rw [rep_getSize x bs hr]
  refine ⟨?_, ?_, ?_, ?_⟩
  · intro h15
    cases hm : x.MS with
    | S s =>
      obtain ⟨y, l2, e, -, -, r, -⟩ := push_promote x s bs c hm hr h15
      obtain ⟨hp, -, -⟩ := push_heap x y bs c hr e
      refine ⟨y, e, (hp h15).1, (hp h15).2, ?_⟩
      rw [rep_getSize y _ r]
      simp [h15]
    | L l =>
      rw [hm] at hr
      have := hr.1
      omega
  · intro h30 hk hmax
    obtain ⟨y, z, e, r, hh, hb, -⟩ := grow_then_pop x bs c hr h30 hk hmax
    refine ⟨y, e, hh, hb, ?_, ?_⟩
    · rw [rep_getSize y _ r]
      simp
    · intro i hi
      rw [rep_at x bs hr i hi, rep_at y _ r i (by simp; omega)]
      congr 1
      exact List.getElem_append_left hi
  · intro h15 hg
    constructor
    · intro s hm
      have hl : bs.length ≤ 15 := by
        rw [hm] at hr
        exact hr.2.1
      exact push_small_eq x s bs c hm hr (by omega)
    · intro l hm
      exact push_inplace_eq x l bs c hm hr hg
  · intro y hy
    obtain ⟨h15, hgrow, hin⟩ := push_heap x y bs c hr hy
    have ry := push_rep x y bs c hr hy
    refine ⟨?_, ?_, ?_⟩
    · constructor
      · intro ha
        by_contra hc
        have hne : bs.length ≠ 15 := fun e => hc (Or.inl e)
        have hng : ¬ (30 ≤ bs.length ∧ ∃ k, bs.length + 2 = 2 ^ k) := fun e => hc (Or.inr e)
        rw [(hin hne hng).1] at ha
        omega
      · rintro (e | e)
        · rw [(h15 e).1]
          rfl
        · rw [(hgrow e).1]
          rfl
    · by_cases e15 : bs.length = 15
      · right
        rw [(h15 e15).1]
        rfl
      · by_cases hg : 30 ≤ bs.length ∧ ∃ k, bs.length + 2 = 2 ^ k
        · right
          rw [(hgrow hg).1]
          rfl
        · left
          rw [(hin e15 hg).1]
    · rw [rep_getSize y _ ry]
      simp

/-- Witness of C13: the value built from the 30 bytes 0..29, a growth point, and the
byte 7. -/
theorem C13_growth_policy_witness :
    ∃ x, MicroString.ofBytes (List.range 30) = .ok x ∧ Reachable x ∧
    ((x.getSize = 15 →
      ∃ y, x.push 7 = .ok y ∧ y.heap = x.heap.alloc ∧ y.bufferSize = some 32 ∧
        y.getSize = 16) ∧
    (30 ≤ x.getSize → (∃ k, x.getSize + 2 = 2 ^ k) → x.getSize + 3 ≤ 2 ^ 63 →
      ∃ y, x.push 7 = .ok y ∧ y.heap = x.heap.alloc.free ∧
        y.bufferSize = some (2 * (x.getSize + 2)) ∧ y.getSize = x.getSize + 1 ∧
        ∀ i, i < x.getSize → y.at i = x.at i) ∧
    (x.getSize ≠ 15 → ¬ (30 ≤ x.getSize ∧ ∃ k, x.getSize + 2 = 2 ^ k) →
      (∀ s, x.MS = .S s →
        x.push 7 = (store s.characters x.getSize (some 7)).bind
          (fun cs => .ok ⟨.S ⟨cs, s.size - 1, s.flag⟩, x.heap⟩)) ∧
      (∀ l, x.MS = .L l →
        x.push 7 = (store l.ptr x.getSize (some 7)).bind (fun p =>
          (store p (x.getSize + 1) (some 0)).bind (fun q =>
            .ok ⟨.L ⟨q, l.size + 1⟩, x.heap⟩)))) ∧
    (∀ y, x.push 7 = .ok y →
      (y.heap.allocated = x.heap.allocated + 1 ↔
        (x.getSize = 15 ∨ (30 ≤ x.getSize ∧ ∃ k, x.getSize + 2 = 2 ^ k))) ∧
      (y.heap.allocated = x.heap.allocated ∨ y.heap.allocated = x.heap.allocated + 1) ∧
      y.getSize = x.getSize + 1)) :=
  match ofBytes_built (List.range 30) (by decide) with
  | ⟨x, e, _⟩ =>
    ⟨x, e, reachable_pushAll _ _ _ Reachable.empty e,
      C13_growth_policy x (reachable_pushAll _ _ _ Reachable.empty e) 7⟩

/-- C14 (thrashing on every operation), refuted as stated. There is no reachable value
and no length at which an append allocates a buffer and the `removeLast()` that follows
it allocates a buffer as well. -/
theorem C14_no_length_thrashes_both_ways :
    ¬ ∃ (x y z : MicroString) (c d : Nat), Reachable x ∧ x.push c = .ok y ∧
      y.pop = .ok (d, z) ∧ y.heap.allocated = x.heap.allocated + 1 ∧
      z.heap.allocated = y.heap.allocated + 1 := by
  rintro ⟨x, y, z, c, d, hx, hp, hq, h1, h2⟩
  exact no_double_alloc x y z c d hx hp hq h1 h2

/-- C14 (thrashing), amended. When append and removeLast alternate at a growth boundary
(a reachable value of length `L ≥ 30` with `L + 2` a power of two and `L + 1`
representable), the append allocates a new buffer of `2 * (L + 2)` bytes and releases the
old one, and the `removeLast()` that follows returns the appended byte without touching
the allocator and leaves length `L` in the doubled buffer: every cycle of the alternation
reallocates once, in its append. -/
theorem C14_alternation_reallocates_on_append (x : MicroString) (hx : Reachable x)
    (c : Nat) (h30 : 30 ≤ x.getSize) (hk : ∃ k, x.getSize + 2 = 2 ^ k)
    (hmax : x.getSize + 3 ≤ 2 ^ 63) :
    ∃ y z, x.push c = .ok y ∧ y.heap = x.heap.alloc.free ∧
      y.bufferSize = some (2 * (x.getSize + 2)) ∧
      y.pop = .ok (c, z) ∧ z.heap = y.heap ∧ z.bufferSize = y.bufferSize ∧
      z.getSize = x.getSize ∧ 30 ≤ z.getSize ∧ (∃ k, z.getSize + 2 = 2 ^ k) := by
  obtain ⟨bs, hr⟩ := reachable_rep x hx
  rw [rep_getSize x bs hr] at h30 hk hmax ⊢
  obtain ⟨y, z, e, r, hh, hb, ez, rz, hz, hzb⟩ := grow_then_pop x bs c hr h30 hk hmax
  have hzs := rep_getSize z bs rz
  exact ⟨y, z, e, hh, hb, ez, hz, hzb, hzs, by rw [hzs]; exact h30, by rw [hzs]; exact hk⟩

/-- Witness of the amended C14: the value built from the 30 bytes 0..29 and the
byte 7. -/
theorem C14_alternation_reallocates_on_append_witness :
    ∃ x, MicroString.ofBytes (List.range 30) = .ok x ∧ x.getSize = 30 ∧
      (Reachable x ∧ 30 ≤ x.getSize ∧ (∃ k, x.getSize + 2 = 2 ^ k) ∧
        x.getSize + 3 ≤ 2 ^ 63) ∧
      ∃ y z, x.push 7 = .ok y ∧ y.heap = x.heap.alloc.free ∧
        y.bufferSize = some (2 * (x.getSize + 2)) ∧
        y.pop = .ok (7, z) ∧ z.heap = y.heap ∧ z.bufferSize = y.bufferSize ∧
        z.getSize = x.getSize ∧ 30 ≤ z.getSize ∧ (∃ k, z.getSize + 2 = 2 ^ k) :=
  match ofBytes_built (List.range 30) (by decide) with
  | ⟨x, e, hb⟩ =>
    have hs : x.getSize = 30 := rep_getSize x _ hb.1
    have hr : Reachable x := reachable_pushAll _ _ _ Reachable.empty e
    ⟨x, e, hs, ⟨hr, by rw [hs], ⟨5, by rw [hs]; norm_num⟩, by rw [hs]; decide⟩,
      C14_alternation_reallocates_on_append x hr 7 (by rw [hs]) ⟨5, by rw [hs]; norm_num⟩
        (by rw [hs]; decide)⟩

/-! ## Alternation at length 30 -/

/-- One append/removeLast cycle at length 30. -/
theorem cycle_at_30 (x : MicroString) (bs : List Nat) (c : Nat) (hx : Reachable x)
    (h : Rep x.MS bs) (h30 : bs.length = 30) :
    ∃ y z, x.push c = .ok y ∧ y.getSize = 31 ∧ y.heap = x.heap.alloc.free ∧
      y.bufferSize = some 64 ∧ y.pop = .ok (c, z) ∧ z.heap = y.heap ∧
      Rep z.MS bs ∧ Reachable z ∧ x.appendRemove c = .ok z := by
  obtain ⟨y, z, e, r, hh, hb, ez, rz, hz, -⟩ :=
    grow_then_pop x bs c h (by omega) ⟨5, by rw [h30]; norm_num⟩ (by omega)
  have hry : Reachable y := Reachable.push c x y hx e
  refine ⟨y, z, e, ?_, hh, by rw [hb, h30], ez, hz, rz, reachable_pop_ok y z c hry ez, ?_⟩
  · rw [rep_getSize y _ r]
    simp [h30]
  · unfold MicroString.appendRemove
    rw [e]
    simp only [Except.bind]
    rw [ez]

/-- Any number of append/removeLast cycles at length 30: each one allocates once. -/
theorem cycles_at_30 (cs : List Nat) (x : MicroString) (bs : List Nat) (hx : Reachable x)
    (h : Rep x.MS bs) (h30 : bs.length = 30) :
    ∃ w, x.appendRemoveAll cs = .ok w ∧ Rep w.MS bs ∧ Reachable w ∧
      w.heap.allocated = x.heap.allocated + cs.length ∧
      w.heap.released = x.heap.released + cs.length := by
  induction cs generalizing x with
  | nil => exact ⟨x, rfl, h, hx, rfl, rfl⟩
  | cons c cs ih =>
    obtain ⟨y, z, -, -, hh, -, -, hz, rz, hrz, ec⟩ := cycle_at_30 x bs c hx h h30
    obtain ⟨w, ew, rw2, hrw, ha, hrel⟩ := ih z hrz rz
    refine ⟨w, ?_, rw2, hrw, ?_, ?_⟩
    · rw [MicroString.appendRemoveAll, ec]
      exact ew
    · rw [ha, hz, hh]
      simp only [Heap.alloc, Heap.free, List.length_cons]
      omega
    · rw [hrel, hz, hh]
      simp only [Heap.alloc, Heap.free, List.length_cons]
      omega

/-- C15 (boundary thrash scenario). For every reachable value of length 30: the append
to length 31 allocates a new buffer (of 64 bytes); `removeLast()` brings the value back to
length 30; the next append to length 31 allocates a new buffer again. Any run of
append/removeLast cycles from length 30 returns at length 30 and has allocated exactly
one buffer per cycle. -/
theorem C15_boundary_thrash (x : MicroString) (hx : Reachable x) (h30 : x.getSize = 30) :
    (∀ c, ∃ y z, x.push c = .ok y ∧ y.getSize = 31 ∧
      y.heap.allocated = x.heap.allocated + 1 ∧ y.bufferSize = some 64 ∧
      y.pop = .ok (c, z) ∧ z.getSize = 30 ∧
      ∀ c2, ∃ y2, z.push c2 = .ok y2 ∧ y2.getSize = 31 ∧
        y2.heap.allocated = z.heap.allocated + 1 ∧ y2.bufferSize = some 64) ∧
    (∀ cs : List Nat, ∃ w, x.appendRemoveAll cs = .ok w ∧ w.getSize = 30 ∧
      w.heap.allocated = x.heap.allocated + cs.length) := by
  obtain ⟨bs, hr⟩ := reachable_rep x hx
  have hl : bs.length = 30 := by rw [← rep_getSize x bs hr, h30]
  constructor
  · intro c
    obtain ⟨y, z, e, hys, hh, hb, ez, hz, rz, hrz, -⟩ := cycle_at_30 x bs c hx hr hl
    refine ⟨y, z, e, hys, by rw [hh]; rfl, hb, ez, by rw [rep_getSize z bs rz, hl], ?_⟩
    intro c2
    obtain ⟨y2, -, e2, hys2, hh2, hb2, -⟩ := cycle_at_30 z bs c2 hrz rz hl
    exact ⟨y2, e2, hys2, by rw [hh2]; rfl, hb2⟩
  · intro cs
    obtain ⟨w, ew, rw2, -, ha, -⟩ := cycles_at_30 cs x bs hx hr hl
    exact ⟨w, ew, by rw [rep_getSize w bs rw2, hl], ha⟩

/-- Witness of C15: the value built from the 31 bytes 0..30 and reduced by one
`removeLast()`, a value of length 30 in a 64-byte buffer; three cycles. -/
theorem C15_boundary_thrash_witness :
    ∃ u x, MicroString.ofBytes (List.range 31) = .ok u ∧ u.pop = .ok (30, x) ∧
      (Reachable x ∧ x.getSize = 30) ∧
      (∀ c, ∃ y z, x.push c = .ok y ∧ y.getSize = 31 ∧
        y.heap.allocated = x.heap.allocated + 1 ∧ y.bufferSize = some 64 ∧
        y.pop = .ok (c, z) ∧ z.getSize = 30 ∧
        ∀ c2, ∃ y2, z.push c2 = .ok y2 ∧ y2.getSize = 31 ∧
          y2.heap.allocated = z.heap.allocated + 1 ∧ y2.bufferSize = some 64) ∧
      (∀ cs : List Nat, ∃ w, x.appendRemoveAll cs = .ok w ∧ w.getSize = 30 ∧
        w.heap.allocated = x.heap.allocated + cs.length) :=
  match ofBytes_built (List.range 31) (by decide) with
  | ⟨u, e, hb⟩ =>
    match pop_rep u (List.range 30) 30 hb.1 with
    | ⟨x, ex, rx⟩ =>
      have hr : Reachable x :=
        reachable_pop_ok u x 30 (reachable_pushAll _ _ _ Reachable.empty e) ex
      have hs : x.getSize = 30 := rep_getSize x _ rx
      ⟨u, x, e, ex, ⟨hr, hs⟩, C15_boundary_thrash x hr hs⟩

/-! ## Length encoding -/

/-- What `isSmall()` and `getSize()` read from a 64-bit length field whose top bit is
set. -/
theorem large_isSmall_getSize (p : Buffer) (h : Heap) (v : Nat) (h1 : 2 ^ 63 ≤ v)
    (h2 : v < 2 ^ 64) :
    (⟨.L ⟨p, v⟩, h⟩ : MicroString).isSmall = false ∧
      (⟨.L ⟨p, v⟩, h⟩ : MicroString).getSize = v % 2 ^ 63 := by
  have hf : v / 2 ^ 63 % 2 = 1 := by omega
  have hs : (⟨.L ⟨p, v⟩, h⟩ : MicroString).isSmall = false := by
    unfold MicroString.isSmall
    simp only [_MicroString.flag, hf]
    rfl
  refine ⟨hs, ?_⟩
  unfold MicroString.getSize
  rw [hs]
  simp only [_MicroString.largeSize, BOTTOM_63_MASK]
  rw [if_neg (by simp), Nat.and_pow_two_sub_one_eq_mod]

/-- C17 (length encoding). In every reachable state `length()` is 15 minus the 7-bit
remaining counter when inline, and the lower 63 bits of the combined 64-bit field, whose
top bit is set, when heap. On a combined field with the top bit set, the `+ 1` update at a
length below `2 ^ 63 - 1` and the `- 1` update at a length of at least 1 leave the top bit
set and change `length()` by exactly one. In a reachable inline state the counter update
of `push` (length below 15) is a decrement and that of `pop` on a non-empty value an
increment, neither wrapping the 7-bit field. -/
theorem C17_length_encoding :
    (∀ x, Reachable x →
      (∀ s, x.MS = .S s → x.isSmall = true ∧ s.size ≤ 15 ∧ x.getSize = 15 - s.size) ∧
      (∀ l, x.MS = .L l → x.isSmall = false ∧ l.size < 2 ^ 64 ∧ l.size / 2 ^ 63 % 2 = 1 ∧
        x.getSize = l.size % 2 ^ 63)) ∧
    (∀ (p : Buffer) (h : Heap) (v : Nat), 2 ^ 63 ≤ v → v < 2 ^ 64 →
      v % 2 ^ 63 < 2 ^ 63 - 1 →
      (⟨.L ⟨p, add64 v 1⟩, h⟩ : MicroString).isSmall = false ∧
      (⟨.L ⟨p, add64 v 1⟩, h⟩ : MicroString).getSize =
        (⟨.L ⟨p, v⟩, h⟩ : MicroString).getSize + 1) ∧
    (∀ (p : Buffer) (h : Heap) (v : Nat), 2 ^ 63 ≤ v → v < 2 ^ 64 → 1 ≤ v % 2 ^ 63 →
      (⟨.L ⟨p, sub64 v 1⟩, h⟩ : MicroString).isSmall = false ∧
      (⟨.L ⟨p, sub64 v 1⟩, h⟩ : MicroString).getSize + 1 =
        (⟨.L ⟨p, v⟩, h⟩ : MicroString).getSize) ∧
    (∀ x s, Reachable x → x.MS = .S s →
      (x.getSize < 15 → ∀ c, ∃ y s2, x.push c = .ok y ∧ y.MS = .S s2 ∧
        s2.size + 1 = s.size ∧ y.getSize = x.getSize + 1) ∧
      (0 < x.getSize → ∃ c y s2, x.pop = .ok (c, y) ∧ y.MS = .S s2 ∧
        s2.size = s.size + 1 ∧ s2.size < 2 ^ 7 ∧ y.getSize + 1 = x.getSize)) := by
  refine ⟨?_, ?_, ?_, ?_⟩
  · intro x hx
    obtain ⟨bs, hr⟩ := reachable_rep x hx
    have hsz := rep_getSize x bs hr
    have hsm := rep_isSmall x bs hr
    constructor
    · intro s hm
      rw [hm] at hr
      obtain ⟨-, hl, hs, -⟩ := hr
      refine ⟨by rw [hsm]; simp [hl], by omega, by omega⟩
    · intro l hm
      rw [hm] at hr
      obtain ⟨h16, hmax, hs, -, -⟩ := hr
      refine ⟨by rw [hsm]; simp; omega, by omega, by omega, by omega⟩
  · intro p h v h1 h2 h3
    have e : add64 v 1 = v + 1 := add64_small _ _ (by omega)
    rw [e]
    obtain ⟨a1, a2⟩ := large_isSmall_getSize p h (v + 1) (by omega) (by omega)
    obtain ⟨-, b2⟩ := large_isSmall_getSize p h v h1 h2
    refine ⟨a1, ?_⟩
    rw [a2, b2]
    omega
  · intro p h v h1 h2 h3
    have e : sub64 v 1 = v - 1 := sub64_small _ _ (by omega) h2
    rw [e]
    obtain ⟨a1, a2⟩ := large_isSmall_getSize p h (v - 1) (by omega) (by omega)
    obtain ⟨-, b2⟩ := large_isSmall_getSize p h v h1 h2
    refine ⟨a1, ?_⟩
    rw [a2, b2]
    omega
  · intro x s hx hm
    obtain ⟨bs, hr⟩ := reachable_rep x hx
    have hsz := rep_getSize x bs hr
    have hs : s.size = 15 - bs.length ∧ bs.length ≤ 15 := by
      have := hr
      rw [hm] at this
      exact ⟨this.2.2.1, this.2.1⟩
    constructor
    · intro hlt c
      rw [hsz] at hlt
      obtain ⟨y, e, r, -, hf⟩ := push_small x s bs c hm hr hlt
      have ey := rep_small_eq y.MS _ r (by simp; omega)
      refine ⟨y, _, e, ey, ?_, ?_⟩
      · simp only [List.length_append, List.length_singleton]
        omega
      · rw [rep_getSize y _ r, hsz]
        simp
    · intro hpos
      obtain ⟨bs2, c2, e⟩ := rep_nil_of_size x bs hr hpos
      subst e
      obtain ⟨y, ey, r, -⟩ := pop_small x s bs2 c2 hm hr
      simp only [List.length_append, List.length_singleton] at hs hsz
      have em := rep_small_eq y.MS _ r (by omega)
      refine ⟨c2, y, _, ey, em, ?_, ?_, ?_⟩
      · simp only
        omega
      · simp only
        omega
      · rw [rep_getSize y _ r, hsz]

/-- Witness of C17: the inline value built from the bytes 104, 105 (counter 13), and the
combined field `2 ^ 63 + 16` of a heap value of length 16. -/
theorem C17_length_encoding_witness :
    (∃ x s, MicroString.ofBytes [104, 105] = .ok x ∧ x.MS = .S s ∧
      (Reachable x ∧ x.getSize < 15 ∧ 0 < x.getSize) ∧
      (x.isSmall = true ∧ s.size ≤ 15 ∧ x.getSize = 15 - s.size) ∧
      (∀ c, ∃ y s2, x.push c = .ok y ∧ y.MS = .S s2 ∧
        s2.size + 1 = s.size ∧ y.getSize = x.getSize + 1) ∧
      (∃ c y s2, x.pop = .ok (c, y) ∧ y.MS = .S s2 ∧
        s2.size = s.size + 1 ∧ s2.size < 2 ^ 7 ∧ y.getSize + 1 = x.getSize)) ∧
    (((2 : Nat) ^ 63 ≤ 2 ^ 63 + 16 ∧ 2 ^ 63 + 16 < 2 ^ 64 ∧
        (2 ^ 63 + 16) % 2 ^ 63 < 2 ^ 63 - 1 ∧ 1 ≤ (2 ^ 63 + 16) % 2 ^ 63) ∧
      ((⟨.L ⟨[], add64 (2 ^ 63 + 16) 1⟩, ⟨1, 0⟩⟩ : MicroString).isSmall = false ∧
        (⟨.L ⟨[], add64 (2 ^ 63 + 16) 1⟩, ⟨1, 0⟩⟩ : MicroString).getSize =
          (⟨.L ⟨[], 2 ^ 63 + 16⟩, ⟨1, 0⟩⟩ : MicroString).getSize + 1) ∧
      ((⟨.L ⟨[], sub64 (2 ^ 63 + 16) 1⟩, ⟨1, 0⟩⟩ : MicroString).isSmall = false ∧
        (⟨.L ⟨[], sub64 (2 ^ 63 + 16) 1⟩, ⟨1, 0⟩⟩ : MicroString).getSize + 1 =
          (⟨.L ⟨[], 2 ^ 63 + 16⟩, ⟨1, 0⟩⟩ : MicroString).getSize)) :=
  have e : MicroString.ofBytes [104, 105] =
      .ok ⟨.S ⟨[some 104, some 105, some 0, some 0, some 0, some 0, some 0,
        some 0, some 0, some 0, some 0, some 0, some 0, some 0, some 0], 13, 0⟩, ⟨0, 0⟩⟩ :=
    rfl
  have hr := reachable_pushAll [104, 105] MicroString.empty _ Reachable.empty e
  ⟨⟨_, _, e, rfl, ⟨hr, by decide, by decide⟩, (C17_length_encoding.1 _ hr).1 _ rfl,
      (C17_length_encoding.2.2.2 _ _ hr rfl).1 (by decide),
      (C17_length_encoding.2.2.2 _ _ hr rfl).2 (by decide)⟩,
    ⟨by decide, by decide, by decide, by decide⟩,
    C17_length_encoding.2.1 [] ⟨1, 0⟩ (2 ^ 63 + 16) (by decide) (by decide) (by decide),
    C17_length_encoding.2.2.1 [] ⟨1, 0⟩ (2 ^ 63 + 16) (by decide) (by decide) (by decide)⟩

/-- C18 (power-of-two test). For every 64-bit unsigned `n ≥ 1`, the test
`(n & (n - 1)) == 0` of `push` (on `length + 2`) and of `pop` (on the new length) is true
if and only if `n` is an exact power of two. -/
theorem C18_power_of_two_test (n : Nat) (h1 : 1 ≤ n) (h64 : n < 2 ^ 64) :
    (n &&& sub64 n 1 = 0) ↔ ∃ k, n = 2 ^ k := by
  rw [sub64_small n 1 h1 h64]
  exact land_pred_eq_zero_iff n h1

/-- Witness of C18 at `n = 32`, the first growth test that succeeds. -/
theorem C18_power_of_two_test_witness :
    (1 ≤ 32 ∧ 32 < 2 ^ 64) ∧ ((32 &&& sub64 32 1 = 0) ↔ ∃ k, 32 = 2 ^ k) :=
  ⟨⟨by decide, by decide⟩, C18_power_of_two_test 32 (by decide) (by decide)⟩

end MicroStr
